import Mathlib

/-
Verification of the cursor-based doubly linked list
(`exercises/doubly-linked-list/example.rs`).

The Rust implementation works on raw `NonNull<Node<T>>` pointers.  The
shallow embedding models the pointer graph as an explicit heap
`Nat → Option (Node α)`: a node pointer is a `Nat` id, `none` means
"not allocated" (never dereferenced by the verified code paths), and
`Box::into_raw` allocation is modelled by a monotone allocation counter
`fresh` so that every allocation returns an id never used before.
Every operation below is a direct transcription of the corresponding
Rust function.
-/

set_option autoImplicit false

namespace DLL

/-- Heap node: one element plus optional previous/next neighbour ids
(struct `Node<T>` in the source; `OptNodePtr<T>` becomes `Option Nat`). -/
structure Node (α : Type) where
  element : α
  next : Option Nat
  prev : Option Nat
deriving DecidableEq

/-- The node heap: id ↦ allocated node, `none` = unallocated or freed. -/
abbrev Heap (α : Type) : Type := Nat → Option (Node α)

/-- Write a node at id `k` (raw pointer store). -/
def Heap.set {α : Type} (h : Heap α) (k : Nat) (nd : Node α) : Heap α :=
  fun j => if j = k then some nd else h j

/-- Free the node at id `k` (the `Box::from_raw` drop inside `into_inner`). -/
def Heap.erase {α : Type} (h : Heap α) (k : Nat) : Heap α :=
  fun j => if j = k then none else h j

/-- Read the `next` field through a node pointer (the source's
`*self.get_next()`).  Dereferencing an unallocated id is undefined
behaviour in the source; the embedding returns `none` there, and the
representation invariant shows that case is never reached. -/
def Heap.getNext {α : Type} (h : Heap α) (k : Nat) : Option Nat :=
  match h k with
  | some nd => nd.next
  | none => none

/-- Read the `prev` field through a node pointer (`*self.get_prev()`). -/
def Heap.getPrev {α : Type} (h : Heap α) (k : Nat) : Option Nat :=
  match h k with
  | some nd => nd.prev
  | none => none

/-- Store into the `next` field through a node pointer. -/
def Heap.setNext {α : Type} (h : Heap α) (k : Nat) (v : Option Nat) : Heap α :=
  match h k with
  | some nd => h.set k { nd with next := v }
  | none => h

/-- Store into the `prev` field through a node pointer. -/
def Heap.setPrev {α : Type} (h : Heap α) (k : Nat) (v : Option Nat) : Heap α :=
  match h k with
  | some nd => h.set k { nd with prev := v }
  | none => h

/-- The source's `NodePtrHelper::link(left, right)`:
`*left.get_next() = Some(right); *right.get_prev() = Some(left)`. -/
def link {α : Type} (h : Heap α) (left right : Nat) : Heap α :=
  (h.setNext left (some right)).setPrev right (some left)

/-- The source's `insert_between(self, prev, next)`:
`link(prev, self); link(self, next)`. -/
def insert_between {α : Type} (h : Heap α) (self p n : Nat) : Heap α :=
  link (link h p self) self n

/-- The source's `insert_new_after(self, element)`: allocate a linkless
node holding `element` (id `fresh`), then either insert it between
`self` and its next neighbour, or link it as the new end of the chain.
Returns the updated heap, the bumped allocation counter, and the new
node's id. -/
def insert_new_after {α : Type} (h : Heap α) (fresh self : Nat) (e : α) :
    Heap α × Nat × Nat :=
  match h.getNext self with
  | some nxt => (insert_between (h.set fresh ⟨e, none, none⟩) fresh self nxt, fresh + 1, fresh)
  | none => (link (h.set fresh ⟨e, none, none⟩) self fresh, fresh + 1, fresh)

/-- The source's `insert_new_before(self, element)`, mirror image of
`insert_new_after`. -/
def insert_new_before {α : Type} (h : Heap α) (fresh self : Nat) (e : α) :
    Heap α × Nat × Nat :=
  match h.getPrev self with
  | some prv => (insert_between (h.set fresh ⟨e, none, none⟩) fresh prv self, fresh + 1, fresh)
  | none => (link (h.set fresh ⟨e, none, none⟩) fresh self, fresh + 1, fresh)

/-- The source's `unlink_next(self)`: clear the back-reference of
`self`'s next neighbour and return that neighbour's id, if any;
`self`'s own link fields are left untouched. -/
def unlink_next {α : Type} (h : Heap α) (self : Nat) : Heap α × Option Nat :=
  match h.getNext self with
  | some nxt => (h.setPrev nxt none, some nxt)
  | none => (h, none)

/-- The source's `unlink_prev(self)`, mirror image of `unlink_next`. -/
def unlink_prev {α : Type} (h : Heap α) (self : Nat) : Heap α × Option Nat :=
  match h.getPrev self with
  | some prv => (h.setNext prv none, some prv)
  | none => (h, none)

/-- The source's `into_inner(self)`: free the node and hand back its
element (in Rust the element is returned by value; the embedding reads
it from the heap cell being freed). -/
def into_inner {α : Type} (h : Heap α) (self : Nat) : Heap α × Option α :=
  (h.erase self, (h self).map Node.element)

/-- The list header `LinkedList<T>`: boundary pointers, length, plus the
node heap and the allocation counter that in Rust live in the global
allocator. -/
structure LinkedList (α : Type) where
  heap : Heap α
  fresh : Nat
  back : Option Nat
  front : Option Nat
  len : Nat

/-- A cursor: the borrowed list together with the current node id, or
`none` for the ghost position (`Cursor { list, node }`). -/
structure Cursor (α : Type) where
  list : LinkedList α
  node : Option Nat

/-- The source's `LinkedList::new()`. -/
def LinkedList.new {α : Type} : LinkedList α :=
  ⟨fun _ => none, 0, none, none, 0⟩

/-- The source's `LinkedList::cursor_front()`. -/
def LinkedList.cursor_front {α : Type} (l : LinkedList α) : Cursor α :=
  ⟨l, l.front⟩

/-- The source's `LinkedList::cursor_back()`. -/
def LinkedList.cursor_back {α : Type} (l : LinkedList α) : Cursor α :=
  ⟨l, l.back⟩

/-- The source's `Cursor::_step`, shared body of `next`/`prev`: if the
cursor is ghost, or the selected link of the current node is empty,
return nothing and leave the cursor unchanged; otherwise move to the
linked node and return its element (the source returns `&mut T`,
modelled as the element value). -/
def Cursor.step {α : Type} (c : Cursor α) (get : Heap α → Nat → Option Nat) :
    Cursor α × Option α :=
  match c.node with
  | none => (c, none)
  | some n =>
    match get c.list.heap n with
    | some newPos => (⟨c.list, some newPos⟩, (c.list.heap newPos).map Node.element)
    | none => (c, none)

/-- The source's `Cursor::next()`. -/
def Cursor.next {α : Type} (c : Cursor α) : Cursor α × Option α :=
  c.step Heap.getNext

/-- The source's `Cursor::prev()`. -/
def Cursor.prev {α : Type} (c : Cursor α) : Cursor α × Option α :=
  c.step Heap.getPrev

/-- The source's `Cursor::peek_mut()`: the current element, or nothing
at the ghost position.  The source returns `&mut T` without touching any
state; the embedding is accordingly a pure read. -/
def Cursor.peek_mut {α : Type} (c : Cursor α) : Option α :=
  c.node.bind fun n => (c.list.heap n).map Node.element

/-- The source's `Cursor::take()`: unlink the current node's neighbours,
re-link or update boundaries according to which neighbours existed, move
the cursor, decrement `len`, and free the node, returning its element.
The `len - 1` is `usize` arithmetic in the source; the reachable-state
invariant (claim C10) shows `len > 0` whenever this branch runs. -/
def Cursor.take {α : Type} (c : Cursor α) : Cursor α × Option α :=
  match c.node with
  | none => (c, none)
  | some node =>
    let un := unlink_next c.list.heap node
    let up := unlink_prev un.1 node
    let res : Heap α × Option Nat × Option Nat × Option Nat :=
      match up.2, un.2 with
      | some p, some n => (link up.1 p n, some n, c.list.front, c.list.back)
      | some p, none => (up.1, some p, c.list.front, some p)
      | none, some n => (up.1, some n, some n, c.list.back)
      | none, none => (up.1, none, none, none)
    let fin := into_inner res.1 node
    (⟨⟨fin.1, c.list.fresh, res.2.2.2, res.2.2.1, c.list.len - 1⟩, res.2.1⟩, fin.2)

/-- The source's `Cursor::_insert`: on a ghost cursor, bootstrap the
empty list (fresh standalone node becomes cursor position and both
boundaries); otherwise run the caller's insertion callback and bump
`len`. -/
def Cursor.insert {α : Type} (c : Cursor α) (e : α)
    (callback : LinkedList α → Nat → α → LinkedList α) : Cursor α :=
  match c.node with
  | none =>
    ⟨⟨c.list.heap.set c.list.fresh ⟨e, none, none⟩, c.list.fresh + 1,
      some c.list.fresh, some c.list.fresh, c.list.len + 1⟩, some c.list.fresh⟩
  | some cursor_node =>
    let l1 := callback c.list cursor_node e
    ⟨{ l1 with len := l1.len + 1 }, some cursor_node⟩

/-- The source's `Cursor::insert_after`. -/
def Cursor.insert_after {α : Type} (c : Cursor α) (e : α) : Cursor α :=
  c.insert e fun l cn el =>
    let r := insert_new_after l.heap l.fresh cn el
    { l with heap := r.1, fresh := r.2.1,
             back := if l.back = some cn then some r.2.2 else l.back }

/-- The source's `Cursor::insert_before`. -/
def Cursor.insert_before {α : Type} (c : Cursor α) (e : α) : Cursor α :=
  c.insert e fun l cn el =>
    let r := insert_new_before l.heap l.fresh cn el
    { l with heap := r.1, fresh := r.2.1,
             front := if l.front = some cn then some r.2.2 else l.front }

/-- Forward id walk following `next` links, as `Iter::next` does; the
source walks until a `None` link, and the `fuel` bound makes the walk
total in the embedding (under the list invariant `len` steps reach the
`None` link, and larger fuels give the same walk). -/
def walkNext {α : Type} (h : Heap α) : Nat → Option Nat → List Nat
  | 0, _ => []
  | _ + 1, none => []
  | fuel + 1, some n => n :: walkNext h fuel (h.getNext n)

/-- Backward id walk following `prev` links, as repeated `Cursor::prev`
does. -/
def walkPrev {α : Type} (h : Heap α) : Nat → Option Nat → List Nat
  | 0, _ => []
  | _ + 1, none => []
  | fuel + 1, some n => n :: walkPrev h fuel (h.getPrev n)

/-- Element sequence of the forward walk (the source's `Iter`,
`iter()` starting it at `front`). -/
def iterElems {α : Type} (h : Heap α) : Nat → Option Nat → List α
  | 0, _ => []
  | _ + 1, none => []
  | fuel + 1, some n =>
    match h n with
    | none => []
    | some nd => nd.element :: iterElems h fuel nd.next

/-- Element sequence of the backward walk (`cursor_back` followed by
repeated `prev()`, reading the element at every position). -/
def prevElems {α : Type} (h : Heap α) : Nat → Option Nat → List α
  | 0, _ => []
  | _ + 1, none => []
  | fuel + 1, some n =>
    match h n with
    | none => []
    | some nd => nd.element :: prevElems h fuel nd.prev

/-- The source's `impl Drop for LinkedList`: a front cursor calls
`take()` until it returns nothing.  Fuel-bounded in the embedding;
returns the final cursor and the elements taken, in order. -/
def drainLoop {α : Type} (c : Cursor α) : Nat → Cursor α × List α
  | 0 => (c, [])
  | fuel + 1 =>
    match c.take with
    | (c1, some e) =>
      let r := drainLoop c1 fuel
      (r.1, e :: r.2)
    | (c1, none) => (c1, [])

/-- One public cursor operation, used to quantify over arbitrary
operation sequences. -/
inductive Op (α : Type) where
  | next
  | prev
  | take
  | insert_after (e : α)
  | insert_before (e : α)

/-- Apply one public cursor operation (discarding the returned element,
which the state does not depend on). -/
def applyOp {α : Type} (c : Cursor α) : Op α → Cursor α
  | .next => (Cursor.next c).1
  | .prev => (Cursor.prev c).1
  | .take => (Cursor.take c).1
  | .insert_after e => c.insert_after e
  | .insert_before e => c.insert_before e

/-- Apply a sequence of public cursor operations. -/
def runOps {α : Type} (c : Cursor α) (ops : List (Op α)) : Cursor α :=
  ops.foldl applyOp c

/-- The cursor obtained from a freshly created list. -/
def newCursor {α : Type} : Cursor α :=
  (LinkedList.new).cursor_front

/-- The operation sequence of the specification's walkthrough scenario:
bootstrap [1], append 2 giving [1, 2] with the cursor still on 1, step onto
2, insert 5 before it giving [1, 5, 2], and step back onto 5. -/
def scenarioOps : List (Op Int) :=
  [Op.insert_after 1, Op.insert_after 2, Op.next, Op.insert_before 5, Op.prev]

/-- Cursor states reachable through the public interface: a front cursor
on a new list, re-entry through `cursor_front`/`cursor_back` on the list
held by a reachable cursor, and any public cursor operation. -/
inductive Reach {α : Type} : Cursor α → Prop where
  | init : Reach (newCursor)
  | front {c : Cursor α} : Reach c → Reach (c.list.cursor_front)
  | back {c : Cursor α} : Reach c → Reach (c.list.cursor_back)
  | op {c : Cursor α} (o : Op α) : Reach c → Reach (applyOp c o)

/-- Head of an id list, with a default link value (so that the `next`
field of a chain node is `headOr rest nx`). -/
def headOr (l : List Nat) (d : Option Nat) : Option Nat :=
  match l with
  | [] => d
  | m :: _ => some m

/-- Last element of an id list, with a default link value. -/
def lastOr (l : List Nat) (d : Option Nat) : Option Nat :=
  match l with
  | [] => d
  | a :: r => lastOr r (some a)

/-- Doubly linked heap segment: the ids in `ids` are allocated and
consecutively linked, the first node's `prev` is `pr`, the last node's
`next` is `nx`. -/
def dseg {α : Type} (h : Heap α) : Option Nat → List Nat → Option Nat → Prop
  | _, [], _ => True
  | pr, n :: rest, nx =>
    ∃ nd, h n = some nd ∧ nd.prev = pr ∧ nd.next = headOr rest nx ∧
      dseg h (some n) rest nx

/-- Representation invariant of a list: some duplicate-free id sequence
`ids` forms the complete chain, the boundary pointers are its ends,
`len` is its length, and every chain id is below the allocation
counter. -/
def Inv {α : Type} (l : LinkedList α) (ids : List Nat) : Prop :=
  dseg l.heap none ids none ∧
  l.front = headOr ids none ∧
  l.back = lastOr ids none ∧
  l.len = ids.length ∧
  ids.Nodup ∧
  ∀ k ∈ ids, k < l.fresh

/-- Cursor invariant: the underlying list satisfies `Inv`, a ghost
cursor implies an empty list, and a non-ghost cursor sits on a chain
node. -/
def CInv {α : Type} (c : Cursor α) (ids : List Nat) : Prop :=
  Inv c.list ids ∧
  (c.node = none → ids = []) ∧
  ∀ n, c.node = some n → n ∈ ids

/-- Elements stored at a list of heap ids, in order. -/
def elemsOf {α : Type} (h : Heap α) (ids : List Nat) : List α :=
  ids.filterMap fun n => (h n).map Node.element

/-- Mirror image of a node: swap the `prev` and `next` links.  Used to
transfer forward-walk lemmas to the backward walk. -/
def Node.flip {α : Type} (nd : Node α) : Node α :=
  ⟨nd.element, nd.prev, nd.next⟩

/-- Mirror image of a heap: every node flipped. -/
def Heap.flip {α : Type} (h : Heap α) : Heap α :=
  fun k => (h k).map Node.flip

variable {α : Type}

theorem Heap.set_self (h : Heap α) (k : Nat) (nd : Node α) : (h.set k nd) k = some nd := by
  simp [Heap.set]

theorem Heap.set_other (h : Heap α) {j k : Nat} (nd : Node α) (hne : j ≠ k) :
    (h.set k nd) j = h j := by
  simp [Heap.set, hne]

theorem Heap.erase_self (h : Heap α) (k : Nat) : (h.erase k) k = none := by
  simp [Heap.erase]

theorem Heap.erase_other (h : Heap α) {j k : Nat} (hne : j ≠ k) : (h.erase k) j = h j := by
  simp [Heap.erase, hne]

theorem Heap.setNext_self {h : Heap α} {k : Nat} {nd : Node α} (hk : h k = some nd)
    (v : Option Nat) : (h.setNext k v) k = some { nd with next := v } := by
  simp [Heap.setNext, hk, Heap.set_self]

theorem Heap.setNext_other (h : Heap α) {j k : Nat} (v : Option Nat) (hne : j ≠ k) :
    (h.setNext k v) j = h j := by
  unfold Heap.setNext
  cases h k with
  | none => rfl
  | some nd => exact Heap.set_other h _ hne

theorem Heap.setPrev_self {h : Heap α} {k : Nat} {nd : Node α} (hk : h k = some nd)
    (v : Option Nat) : (h.setPrev k v) k = some { nd with prev := v } := by
  simp [Heap.setPrev, hk, Heap.set_self]

theorem Heap.setPrev_other (h : Heap α) {j k : Nat} (v : Option Nat) (hne : j ≠ k) :
    (h.setPrev k v) j = h j := by
  unfold Heap.setPrev
  cases h k with
  | none => rfl
  | some nd => exact Heap.set_other h _ hne

theorem Heap.setNext_element (h : Heap α) (k : Nat) (v : Option Nat) (j : Nat) :
    ((h.setNext k v) j).map Node.element = (h j).map Node.element := by
  by_cases hj : j = k
  · subst hj
    cases hk : h j with
    | none => simp [Heap.setNext, hk]
    | some nd => simp [Heap.setNext, hk, Heap.set_self]
  · rw [Heap.setNext_other h v hj]

theorem Heap.setPrev_element (h : Heap α) (k : Nat) (v : Option Nat) (j : Nat) :
    ((h.setPrev k v) j).map Node.element = (h j).map Node.element := by
  by_cases hj : j = k
  · subst hj
    cases hk : h j with
    | none => simp [Heap.setPrev, hk]
    | some nd => simp [Heap.setPrev, hk, Heap.set_self]
  · rw [Heap.setPrev_other h v hj]

theorem headOr_nil (d : Option Nat) : headOr [] d = d := rfl

theorem headOr_cons (a : Nat) (l : List Nat) (d : Option Nat) : headOr (a :: l) d = some a := rfl

theorem headOr_append (l r : List Nat) (d : Option Nat) :
    headOr (l ++ r) d = headOr l (headOr r d) := by
  cases l <;> rfl

theorem headOr_none_eq (l : List Nat) : headOr l none = l.head? := by
  cases l <;> rfl

theorem lastOr_nil (d : Option Nat) : lastOr [] d = d := rfl

theorem lastOr_cons (a : Nat) (l : List Nat) (d : Option Nat) :
    lastOr (a :: l) d = lastOr l (some a) := rfl

theorem lastOr_append (l r : List Nat) (d : Option Nat) :
    lastOr (l ++ r) d = lastOr r (lastOr l d) := by
  induction l generalizing d with
  | nil => rfl
  | cons a l ih => rw [List.cons_append, lastOr_cons, ih, lastOr_cons]

theorem lastOr_concat (l : List Nat) (a : Nat) (d : Option Nat) :
    lastOr (l ++ [a]) d = some a := by
  rw [lastOr_append]; rfl

theorem mem_of_lastOr {l : List Nat} {d : Option Nat} {m : Nat} (hm : lastOr l d = some m) :
    m ∈ l ∨ d = some m := by
  induction l generalizing d with
  | nil => exact Or.inr hm
  | cons a r ih =>
    rw [lastOr_cons] at hm
    rcases ih hm with h | h
    · exact Or.inl (List.mem_cons_of_mem a h)
    · cases h
      exact Or.inl (List.mem_cons_self _ _)

theorem mem_of_lastOr_none {l : List Nat} {m : Nat} (hm : lastOr l none = some m) : m ∈ l := by
  rcases mem_of_lastOr hm with h | h
  · exact h
  · cases h

theorem mem_of_headOr_none {l : List Nat} {m : Nat} (hm : headOr l none = some m) : m ∈ l := by
  cases l with
  | nil => cases hm
  | cons a r =>
    rw [headOr_cons] at hm
    cases hm
    exact List.mem_cons_self _ _

theorem dseg_nil (h : Heap α) (pr nx : Option Nat) : dseg h pr [] nx := trivial

theorem dseg_cons (h : Heap α) (pr nx : Option Nat) (n : Nat) (rest : List Nat) :
    dseg h pr (n :: rest) nx ↔
      ∃ nd, h n = some nd ∧ nd.prev = pr ∧ nd.next = headOr rest nx ∧
        dseg h (some n) rest nx :=
  Iff.rfl

theorem dseg_congr {h1 h2 : Heap α} {ids : List Nat} (hag : ∀ k ∈ ids, h1 k = h2 k)
    (pr nx : Option Nat) : dseg h1 pr ids nx ↔ dseg h2 pr ids nx := by
  induction ids generalizing pr with
  | nil => exact Iff.rfl
  | cons n rest ih =>
    have hn : h1 n = h2 n := hag n (by simp)
    have hrest : ∀ k ∈ rest, h1 k = h2 k := fun k hk => hag k (by simp [hk])
    simp only [dseg_cons, hn, ih hrest]

theorem dseg_append (h : Heap α) (l r : List Nat) (pr nx : Option Nat) :
    dseg h pr (l ++ r) nx ↔ dseg h pr l (headOr r nx) ∧ dseg h (lastOr l pr) r nx := by
  induction l generalizing pr with
  | nil => exact ⟨fun hd => ⟨trivial, hd⟩, fun hd => hd.2⟩
  | cons a l ih =>
    rw [List.cons_append]
    simp only [dseg_cons, headOr_append, lastOr_cons]
    constructor
    · rintro ⟨nd, hnd, hp, hn, hd⟩
      rw [ih (some a)] at hd
      exact ⟨⟨nd, hnd, hp, hn, hd.1⟩, hd.2⟩
    · rintro ⟨⟨nd, hnd, hp, hn, hd1⟩, hd2⟩
      exact ⟨nd, hnd, hp, hn, (ih (some a)).mpr ⟨hd1, hd2⟩⟩

theorem walkNext_none (h : Heap α) (fuel : Nat) : walkNext h fuel none = [] := by
  cases fuel <;> rfl

theorem walkPrev_none (h : Heap α) (fuel : Nat) : walkPrev h fuel none = [] := by
  cases fuel <;> rfl

theorem walkNext_of_dseg {h : Heap α} {ids : List Nat} {pr : Option Nat}
    (hd : dseg h pr ids none) :
    ∀ fuel, ids.length ≤ fuel → walkNext h fuel (headOr ids none) = ids := by
  induction ids generalizing pr with
  | nil => intro fuel _; exact walkNext_none h fuel
  | cons n rest ih =>
    intro fuel hfuel
    obtain ⟨nd, hnd, _, hnx, hdrest⟩ := (dseg_cons h pr none n rest).mp hd
    cases fuel with
    | zero => cases hfuel
    | succ f =>
      have hget : h.getNext n = headOr rest none := by
        simp [Heap.getNext, hnd, hnx]
      rw [headOr_cons]
      show n :: walkNext h f (h.getNext n) = n :: rest
      rw [hget, ih hdrest f (Nat.le_of_succ_le_succ hfuel)]

theorem iterElems_of_dseg {h : Heap α} {ids : List Nat} {pr : Option Nat}
    (hd : dseg h pr ids none) :
    ∀ fuel, ids.length ≤ fuel → iterElems h fuel (headOr ids none) = elemsOf h ids := by
  induction ids generalizing pr with
  | nil =>
    intro fuel _
    cases fuel <;> rfl
  | cons n rest ih =>
    intro fuel hfuel
    obtain ⟨nd, hnd, _, hnx, hdrest⟩ := (dseg_cons h pr none n rest).mp hd
    cases fuel with
    | zero => cases hfuel
    | succ f =>
      rw [headOr_cons]
      show (match h n with
            | none => []
            | some nd => nd.element :: iterElems h f nd.next) = elemsOf h (n :: rest)
      rw [hnd]
      show nd.element :: iterElems h f nd.next = elemsOf h (n :: rest)
      rw [hnx, ih hdrest f (Nat.le_of_succ_le_succ hfuel)]
      simp [elemsOf, List.filterMap_cons, hnd]

theorem getNext_flip (h : Heap α) (k : Nat) : (Heap.flip h).getNext k = h.getPrev k := by
  cases hk : h k <;> simp [Heap.flip, Heap.getNext, Heap.getPrev, Node.flip, hk]

theorem getPrev_flip (h : Heap α) (k : Nat) : (Heap.flip h).getPrev k = h.getNext k := by
  cases hk : h k <;> simp [Heap.flip, Heap.getNext, Heap.getPrev, Node.flip, hk]

theorem flip_element (h : Heap α) (k : Nat) :
    ((Heap.flip h) k).map Node.element = (h k).map Node.element := by
  cases hk : h k <;> simp [Heap.flip, Node.flip, hk]

theorem headOr_reverse (l : List Nat) : headOr l.reverse none = lastOr l none := by
  induction l with
  | nil => rfl
  | cons a r ih =>
    rw [List.reverse_cons, lastOr_cons]
    cases hr : r.reverse with
    | nil =>
      have : r = [] := by
        have := congrArg List.reverse hr
        simpa using this
      subst this
      rfl
    | cons b t =>
      rw [List.cons_append, headOr_cons]
      have hb : headOr r.reverse none = some b := by rw [hr]; rfl
      rw [ih] at hb
      have : lastOr r (some a) = some b := by
        cases r with
        | nil => cases hr
        | cons x y =>
          rw [lastOr_cons] at hb ⊢
          exact hb
      rw [this]

theorem lastOr_reverse (l : List Nat) : lastOr l.reverse none = headOr l none := by
  have h := headOr_reverse l.reverse
  rw [List.reverse_reverse] at h
  exact h.symm

theorem dseg_flip {h : Heap α} {ids : List Nat} {pr nx : Option Nat} (hd : dseg h pr ids nx) :
    dseg (Heap.flip h) nx ids.reverse pr := by
  induction ids generalizing pr with
  | nil => exact dseg_nil _ _ _
  | cons n rest ih =>
    obtain ⟨nd, hnd, hp, hn, hdrest⟩ := (dseg_cons h pr nx n rest).mp hd
    rw [List.reverse_cons]
    rw [dseg_append]
    constructor
    · have := ih hdrest
      rw [headOr_cons]
      exact this
    · rw [dseg_cons]
      refine ⟨nd.flip, ?_, ?_, ?_, dseg_nil _ _ _⟩
      · simp [Heap.flip, hnd]
      · show nd.next = lastOr rest.reverse nx
        rw [hn]
        cases rest with
        | nil => rfl
        | cons b t =>
          rw [headOr_cons]
          have : lastOr (b :: t).reverse nx = lastOr (b :: t).reverse none := by
            rw [List.reverse_cons, lastOr_concat, lastOr_concat]
          rw [this, lastOr_reverse, headOr_cons]
      · exact hp

theorem walkPrev_eq_flip (h : Heap α) :
    ∀ (fuel : Nat) (s : Option Nat), walkPrev h fuel s = walkNext (Heap.flip h) fuel s := by
  intro fuel
  induction fuel with
  | zero => intro s; rfl
  | succ f ih =>
    intro s
    cases s with
    | none => rfl
    | some n =>
      show n :: walkPrev h f (h.getPrev n) = n :: walkNext (Heap.flip h) f ((Heap.flip h).getNext n)
      rw [getNext_flip, ih]

theorem prevElems_eq_flip (h : Heap α) :
    ∀ (fuel : Nat) (s : Option Nat), prevElems h fuel s = iterElems (Heap.flip h) fuel s := by
  intro fuel
  induction fuel with
  | zero => intro s; rfl
  | succ f ih =>
    intro s
    cases s with
    | none => rfl
    | some n =>
      show (match h n with
            | none => []
            | some nd => nd.element :: prevElems h f nd.prev) =
           (match (Heap.flip h) n with
            | none => []
            | some nd => nd.element :: iterElems (Heap.flip h) f nd.next)
      cases hn : h n with
      | none => simp [Heap.flip, hn]
      | some nd => simp [Heap.flip, hn, Node.flip, ih]

theorem elemsOf_congr {h1 h2 : Heap α} {ids : List Nat}
    (hag : ∀ k ∈ ids, (h1 k).map Node.element = (h2 k).map Node.element) :
    elemsOf h1 ids = elemsOf h2 ids := by
  induction ids with
  | nil => rfl
  | cons n rest ih =>
    have hn := hag n (by simp)
    have hrest : ∀ k ∈ rest, (h1 k).map Node.element = (h2 k).map Node.element :=
      fun k hk => hag k (by simp [hk])
    simp only [elemsOf, List.filterMap_cons] at *
    rw [hn, ih hrest]

theorem elemsOf_flip (h : Heap α) (ids : List Nat) :
    elemsOf (Heap.flip h) ids = elemsOf h ids :=
  elemsOf_congr fun k _ => flip_element h k

theorem elemsOf_append (h : Heap α) (l r : List Nat) :
    elemsOf h (l ++ r) = elemsOf h l ++ elemsOf h r := by
  induction l with
  | nil => rfl
  | cons n rest ih =>
    rw [List.cons_append]
    simp only [elemsOf, List.filterMap_cons] at *
    cases (h n).map Node.element with
    | none => exact ih
    | some e => rw [ih]; rfl

theorem elemsOf_reverse (h : Heap α) (ids : List Nat) :
    elemsOf h ids.reverse = (elemsOf h ids).reverse := by
  induction ids with
  | nil => rfl
  | cons n rest ih =>
    rw [List.reverse_cons, elemsOf_append, ih]
    simp only [elemsOf, List.filterMap_cons, List.filterMap_nil]
    cases hn : (h n).map Node.element <;> simp [hn]

theorem headOr_of_ne_nil {l : List Nat} (hl : l ≠ []) (d1 d2 : Option Nat) :
    headOr l d1 = headOr l d2 := by
  cases l with
  | nil => cases hl rfl
  | cons a r => rfl

theorem lastOr_of_ne_nil {l : List Nat} (hl : l ≠ []) (d1 d2 : Option Nat) :
    lastOr l d1 = lastOr l d2 := by
  cases l with
  | nil => cases hl rfl
  | cons a r => rw [lastOr_cons, lastOr_cons]

theorem nodup_mid {L R : List Nat} {n : Nat} (hnd : (L ++ n :: R).Nodup) :
    n ∉ L ∧ n ∉ R ∧ (∀ a ∈ L, a ∉ R) ∧ (∀ a ∈ L, a ≠ n) ∧ L.Nodup ∧ R.Nodup := by
  rw [List.nodup_append] at hnd
  obtain ⟨hL, hnR, hdis⟩ := hnd
  rw [List.nodup_cons] at hnR
  refine ⟨fun hmem => hdis hmem (by simp), hnR.1, ?_, ?_, hL, hnR.2⟩
  · exact fun a ha har => hdis ha (by simp [har])
  · exact fun a ha han => hdis ha (by simp [han])

theorem nodup_concat {L : List Nat} {p : Nat} (hnd : (L ++ [p]).Nodup) :
    p ∉ L ∧ L.Nodup := by
  rw [List.nodup_append] at hnd
  obtain ⟨hL, _, hdis⟩ := hnd
  exact ⟨fun hmem => hdis hmem (by simp), hL⟩

theorem dseg_extract {h : Heap α} {L R : List Nat} {n : Nat}
    (hd : dseg h none (L ++ n :: R) none) :
    ∃ nd, h n = some nd ∧ nd.prev = lastOr L none ∧ nd.next = headOr R none ∧
      dseg h none L (some n) ∧ dseg h (some n) R none := by
  rw [dseg_append] at hd
  obtain ⟨hdL, hdR⟩ := hd
  rw [headOr_cons] at hdL
  obtain ⟨nd, hnd, hp, hx, hdrest⟩ := (dseg_cons h (lastOr L none) none n R).mp hdR
  exact ⟨nd, hnd, hp, hx, hdL, hdrest⟩

theorem link_element (h : Heap α) (a b k : Nat) :
    ((link h a b) k).map Node.element = (h k).map Node.element := by
  unfold link
  rw [Heap.setPrev_element, Heap.setNext_element]

theorem take_spec {c : Cursor α} {L R : List Nat} {n : Nat}
    (hinv : Inv c.list (L ++ n :: R)) (hn : c.node = some n) :
    CInv (Cursor.take c).1 (L ++ R) ∧
    (Cursor.take c).1.node = headOr R (lastOr L none) ∧
    (Cursor.take c).1.list.fresh = c.list.fresh ∧
    (Cursor.take c).2 = (c.list.heap n).map Node.element ∧
    ∀ k, k ≠ n → ((Cursor.take c).1.list.heap k).map Node.element =
      (c.list.heap k).map Node.element := by
  obtain ⟨hdseg, hfront, hback, hlen, hnodup, hfresh⟩ := hinv
  obtain ⟨hnL, hnR, hdisLR, hLn, hLnd, hRnd⟩ := nodup_mid hnodup
  obtain ⟨nd, hnd, hprev, hnext, hdL, hdR⟩ := dseg_extract hdseg
  cases R with
  | nil =>
    rcases List.eq_nil_or_concat' L with rfl | ⟨L1, p, rfl⟩
    · -- sole node of the list: neither neighbour exists
      rw [lastOr_nil] at hprev
      rw [headOr_nil] at hnext
      have hun : unlink_next c.list.heap n = (c.list.heap, none) := by
        simp [unlink_next, Heap.getNext, hnd, hnext]
      have hup : unlink_prev c.list.heap n = (c.list.heap, none) := by
        simp [unlink_prev, Heap.getPrev, hnd, hprev]
      have htake : Cursor.take c =
          (⟨⟨c.list.heap.erase n, c.list.fresh, none, none, c.list.len - 1⟩, none⟩,
           (c.list.heap n).map Node.element) := by
        simp only [Cursor.take, hn, hun, hup, into_inner]
      rw [htake]
      have hlen0 : c.list.len - 1 = ([] ++ ([] : List Nat)).length := by
        rw [hlen]
        rfl
      have hframe0 : ∀ k, k ≠ n →
          ((c.list.heap.erase n) k).map Node.element = (c.list.heap k).map Node.element :=
        fun k hk => by rw [Heap.erase_other _ hk]
      exact ⟨⟨⟨dseg_nil _ _ _, rfl, rfl, hlen0, List.nodup_nil,
        fun k hk => absurd hk (by simp)⟩, fun _ => rfl,
        fun m hm => Option.noConfusion hm⟩, rfl, rfl, rfl, hframe0⟩
    · -- last node of the list: only a prev neighbour p
      rw [lastOr_concat] at hprev
      rw [headOr_nil] at hnext
      have hpL : p ∈ L1 ++ [p] := by simp
      have hpn : p ≠ n := hLn p hpL
      obtain ⟨hpL1, hL1nd⟩ := nodup_concat hLnd
      rw [dseg_append] at hdL
      obtain ⟨hdL1, hdp⟩ := hdL
      rw [headOr_cons] at hdL1
      obtain ⟨ndp, hndp, hpprev, hpnext, -⟩ :=
        (dseg_cons c.list.heap (lastOr L1 none) (some n) p []).mp hdp
      rw [headOr_nil] at hpnext
      have hun : unlink_next c.list.heap n = (c.list.heap, none) := by
        simp [unlink_next, Heap.getNext, hnd, hnext]
      have hgp : c.list.heap.getPrev n = some p := by
        rw [Heap.getPrev, hnd]
        exact hprev
      have hup : unlink_prev c.list.heap n = (c.list.heap.setNext p none, some p) := by
        simp [unlink_prev, hgp]
      have htake : Cursor.take c =
          (⟨⟨(c.list.heap.setNext p none).erase n, c.list.fresh, some p, c.list.front,
             c.list.len - 1⟩, some p⟩,
           ((c.list.heap.setNext p none) n).map Node.element) := by
        simp only [Cursor.take, hn, hun, hup, into_inner]
      rw [htake, List.append_nil]
      have hagL1 : ∀ k ∈ L1, ((c.list.heap.setNext p none).erase n) k = c.list.heap k := by
        intro k hk
        rw [Heap.erase_other _ (hLn k (by simp [hk])),
          Heap.setNext_other _ _ (fun he => hpL1 (by rw [← he]; exact hk))]
      have hp4 : ((c.list.heap.setNext p none).erase n) p =
          some { ndp with next := none } := by
        rw [Heap.erase_other _ hpn, Heap.setNext_self hndp]
      have hseg : dseg ((c.list.heap.setNext p none).erase n) none (L1 ++ [p]) none := by
        rw [dseg_append]
        refine ⟨?_, ?_⟩
        · rw [headOr_cons, dseg_congr hagL1]
          exact hdL1
        · rw [dseg_cons]
          exact ⟨{ ndp with next := none }, hp4, hpprev, rfl, dseg_nil _ _ _⟩
      have hfr : c.list.front = headOr (L1 ++ [p]) none := by
        rw [hfront, headOr_append]
        exact headOr_of_ne_nil (by simp) _ _
      have hbk2 : (some p : Option Nat) = lastOr (L1 ++ [p]) none := by
        rw [lastOr_concat]
      have hln : c.list.len - 1 = (L1 ++ [p]).length := by
        rw [hlen]
        simp only [List.length_append, List.length_cons, List.length_nil]
        omega
      have hnode2 : (some p : Option Nat) = headOr [] (lastOr (L1 ++ [p]) none) := by
        rw [headOr_nil, lastOr_concat]
      have hret2 : ((c.list.heap.setNext p none) n).map Node.element =
          (c.list.heap n).map Node.element := by
        rw [Heap.setNext_other _ _ (Ne.symm hpn)]
      have hframe2 : ∀ k, k ≠ n →
          (((c.list.heap.setNext p none).erase n) k).map Node.element =
            (c.list.heap k).map Node.element :=
        fun k hk => by rw [Heap.erase_other _ hk, Heap.setNext_element]
      have hmem2 : ∀ m, (some p : Option Nat) = some m → m ∈ L1 ++ [p] := by
        intro m hm
        cases hm
        exact hpL
      exact ⟨⟨⟨hseg, hfr, hbk2, hln, hLnd,
        fun k hk => hfresh k (List.mem_append_left _ hk)⟩,
        fun he => Option.noConfusion he, hmem2⟩, hnode2, rfl, hret2, hframe2⟩
  | cons r0 R1 =>
    have hrR : r0 ∈ r0 :: R1 := by simp
    have hrn : r0 ≠ n := fun he => hnR (by rw [← he]; exact hrR)
    rw [headOr_cons] at hnext
    obtain ⟨ndr, hndr, hrprev, hrnext, hdR1⟩ :=
      (dseg_cons c.list.heap (some n) none r0 R1).mp hdR
    rw [List.nodup_cons] at hRnd
    obtain ⟨hr0R1, hR1nd⟩ := hRnd
    have hun : unlink_next c.list.heap n = (c.list.heap.setPrev r0 none, some r0) := by
      simp [unlink_next, Heap.getNext, hnd, hnext]
    rcases List.eq_nil_or_concat' L with rfl | ⟨L1, p, rfl⟩
    · -- front node of the list: only a next neighbour r0
      rw [lastOr_nil] at hprev
      have hgp : (c.list.heap.setPrev r0 none).getPrev n = none := by
        rw [Heap.getPrev, Heap.setPrev_other _ _ (Ne.symm hrn), hnd]
        exact hprev
      have hup : unlink_prev (c.list.heap.setPrev r0 none) n =
          (c.list.heap.setPrev r0 none, none) := by
        simp [unlink_prev, hgp]
      have htake : Cursor.take c =
          (⟨⟨(c.list.heap.setPrev r0 none).erase n, c.list.fresh, c.list.back, some r0,
             c.list.len - 1⟩, some r0⟩,
           ((c.list.heap.setPrev r0 none) n).map Node.element) := by
        simp only [Cursor.take, hn, hun, hup, into_inner]
      rw [htake]
      have hagR1 : ∀ k ∈ R1, ((c.list.heap.setPrev r0 none).erase n) k = c.list.heap k := by
        intro k hk
        rw [Heap.erase_other _
            (fun he => hnR (by rw [← he]; exact List.mem_cons_of_mem r0 hk)),
          Heap.setPrev_other _ _ (fun he => hr0R1 (by rw [← he]; exact hk))]
      have hr4 : ((c.list.heap.setPrev r0 none).erase n) r0 =
          some { ndr with prev := none } := by
        rw [Heap.erase_other _ hrn, Heap.setPrev_self hndr]
      have hseg : dseg ((c.list.heap.setPrev r0 none).erase n) none (r0 :: R1) none := by
        rw [dseg_cons]
        refine ⟨{ ndr with prev := none }, hr4, rfl, hrnext, ?_⟩
        rw [dseg_congr hagR1]
        exact hdR1
      have hbk : c.list.back = lastOr (r0 :: R1) none := by
        simp only [hback, List.nil_append, lastOr_cons]
      have hln : c.list.len - 1 = (r0 :: R1).length := by
        simp only [hlen, List.nil_append, List.length_cons]
        omega
      have hret3 : ((c.list.heap.setPrev r0 none) n).map Node.element =
          (c.list.heap n).map Node.element := by
        rw [Heap.setPrev_other _ _ (Ne.symm hrn)]
      have hframe3 : ∀ k, k ≠ n →
          (((c.list.heap.setPrev r0 none).erase n) k).map Node.element =
            (c.list.heap k).map Node.element :=
        fun k hk => by rw [Heap.erase_other _ hk, Heap.setPrev_element]
      have hmem3 : ∀ m, (some r0 : Option Nat) = some m → m ∈ [] ++ r0 :: R1 := by
        intro m hm
        cases hm
        exact hrR
      exact ⟨⟨⟨hseg, rfl, hbk, hln, List.nodup_cons.mpr ⟨hr0R1, hR1nd⟩,
        fun k hk => hfresh k (List.mem_cons_of_mem n hk)⟩,
        fun he => Option.noConfusion he, hmem3⟩,
        rfl, rfl, hret3, hframe3⟩
    · -- interior node: both neighbours exist, close the gap
      rw [lastOr_concat] at hprev
      have hpL : p ∈ L1 ++ [p] := by simp
      have hpn : p ≠ n := hLn p hpL
      have hpr : p ≠ r0 := fun he => hdisLR p hpL (by rw [he]; exact hrR)
      obtain ⟨hpL1, hL1nd⟩ := nodup_concat hLnd
      rw [dseg_append] at hdL
      obtain ⟨hdL1, hdp⟩ := hdL
      rw [headOr_cons] at hdL1
      obtain ⟨ndp, hndp, hpprev, hpnext, -⟩ :=
        (dseg_cons c.list.heap (lastOr L1 none) (some n) p []).mp hdp
      rw [headOr_nil] at hpnext
      have hgp : (c.list.heap.setPrev r0 none).getPrev n = some p := by
        rw [Heap.getPrev, Heap.setPrev_other _ _ (Ne.symm hrn), hnd]
        exact hprev
      have hup : unlink_prev (c.list.heap.setPrev r0 none) n =
          ((c.list.heap.setPrev r0 none).setNext p none, some p) := by
        simp [unlink_prev, hgp]
      have htake : Cursor.take c =
          (⟨⟨(link ((c.list.heap.setPrev r0 none).setNext p none) p r0).erase n,
             c.list.fresh, c.list.back, c.list.front, c.list.len - 1⟩, some r0⟩,
           ((link ((c.list.heap.setPrev r0 none).setNext p none) p r0) n).map
             Node.element) := by
        simp only [Cursor.take, hn, hun, hup, into_inner]
      rw [htake, (by simp : (L1 ++ [p]) ++ r0 :: R1 = L1 ++ p :: r0 :: R1)]
      have hframe : ∀ k, k ≠ n → k ≠ p → k ≠ r0 →
          ((link ((c.list.heap.setPrev r0 none).setNext p none) p r0).erase n) k =
            c.list.heap k := by
        intro k hk1 hk2 hk3
        rw [Heap.erase_other _ hk1, link, Heap.setPrev_other _ _ hk3,
          Heap.setNext_other _ _ hk2, Heap.setNext_other _ _ hk2,
          Heap.setPrev_other _ _ hk3]
      have hagL1 : ∀ k ∈ L1,
          ((link ((c.list.heap.setPrev r0 none).setNext p none) p r0).erase n) k =
            c.list.heap k := by
        intro k hk
        exact hframe k (hLn k (by simp [hk]))
          (fun he => hpL1 (by rw [← he]; exact hk))
          (fun he => hdisLR k (by simp [hk]) (by rw [he]; exact hrR))
      have hagR1 : ∀ k ∈ R1,
          ((link ((c.list.heap.setPrev r0 none).setNext p none) p r0).erase n) k =
            c.list.heap k := by
        intro k hk
        exact hframe k
          (fun he => hnR (by rw [← he]; exact List.mem_cons_of_mem r0 hk))
          (fun he => hdisLR p hpL (by rw [← he]; exact List.mem_cons_of_mem r0 hk))
          (fun he => hr0R1 (by rw [← he]; exact hk))
      have hsp : (c.list.heap.setPrev r0 none) p = some ndp := by
        rw [Heap.setPrev_other _ _ hpr]
        exact hndp
      have hmidp : ((c.list.heap.setPrev r0 none).setNext p none) p =
          some { ndp with next := none } := Heap.setNext_self hsp none
      have hp3 : (link ((c.list.heap.setPrev r0 none).setNext p none) p r0) p =
          some { ndp with next := some r0 } := by
        rw [link, Heap.setPrev_other _ _ hpr, Heap.setNext_self hmidp]
      have hp4 : ((link ((c.list.heap.setPrev r0 none).setNext p none) p r0).erase n) p =
          some { ndp with next := some r0 } := by
        rw [Heap.erase_other _ hpn]
        exact hp3
      have h2r : ((c.list.heap.setPrev r0 none).setNext p none) r0 =
          some { ndr with prev := none } := by
        rw [Heap.setNext_other _ _ (Ne.symm hpr)]
        exact Heap.setPrev_self hndr none
      have h3r : (((c.list.heap.setPrev r0 none).setNext p none).setNext p (some r0)) r0 =
          some { ndr with prev := none } := by
        rw [Heap.setNext_other _ _ (Ne.symm hpr)]
        exact h2r
      have hr3 : (link ((c.list.heap.setPrev r0 none).setNext p none) p r0) r0 =
          some { ndr with prev := some p } := by
        rw [link]
        exact Heap.setPrev_self h3r (some p)
      have hr4 : ((link ((c.list.heap.setPrev r0 none).setNext p none) p r0).erase n) r0 =
          some { ndr with prev := some p } := by
        rw [Heap.erase_other _ hrn]
        exact hr3
      have hseg : dseg ((link ((c.list.heap.setPrev r0 none).setNext p none) p r0).erase n)
          none (L1 ++ p :: r0 :: R1) none := by
        rw [dseg_append]
        refine ⟨?_, ?_⟩
        · rw [headOr_cons, dseg_congr hagL1]
          exact hdL1
        · rw [dseg_cons]
          refine ⟨{ ndp with next := some r0 }, hp4, hpprev, rfl, ?_⟩
          rw [dseg_cons]
          refine ⟨{ ndr with prev := some p }, hr4, rfl, hrnext, ?_⟩
          rw [dseg_congr hagR1]
          exact hdR1
      have hfr : c.list.front = headOr (L1 ++ p :: r0 :: R1) none := by
        simp only [hfront, headOr_append, headOr_cons]
      have hbk : c.list.back = lastOr (L1 ++ p :: r0 :: R1) none := by
        simp only [hback, lastOr_append, lastOr_cons, lastOr_nil]
      have hln : c.list.len - 1 = (L1 ++ p :: r0 :: R1).length := by
        simp only [hlen, List.length_append, List.length_cons, List.length_nil]
        omega
      have hnodup2 : (L1 ++ p :: r0 :: R1).Nodup := by
        rw [(by simp : L1 ++ p :: r0 :: R1 = (L1 ++ [p]) ++ r0 :: R1)]
        exact List.Nodup.sublist
          ((List.sublist_cons_of_sublist n (List.Sublist.refl _)).append_left (L1 ++ [p]))
          hnodup
      have hfrk : ∀ k ∈ L1 ++ p :: r0 :: R1, k < c.list.fresh := by
        intro k hk
        refine hfresh k ?_
        simp only [List.mem_append, List.mem_cons] at hk ⊢
        tauto
      have hnode4 : (some r0 : Option Nat) =
          headOr (r0 :: R1) (lastOr (L1 ++ [p]) none) := by
        rw [headOr_cons]
      have hret4 : ((link ((c.list.heap.setPrev r0 none).setNext p none) p r0) n).map
          Node.element = (c.list.heap n).map Node.element := by
        rw [link_element, Heap.setNext_element, Heap.setPrev_element]
      have hframe4 : ∀ k, k ≠ n →
          (((link ((c.list.heap.setPrev r0 none).setNext p none) p r0).erase n) k).map
            Node.element = (c.list.heap k).map Node.element :=
        fun k hk => by
          rw [Heap.erase_other _ hk, link_element, Heap.setNext_element,
            Heap.setPrev_element]
      have hmem4 : ∀ m, (some r0 : Option Nat) = some m → m ∈ L1 ++ p :: r0 :: R1 := by
        intro m hm
        cases hm
        simp
      exact ⟨⟨⟨hseg, hfr, hbk, hln, hnodup2, hfrk⟩,
        fun he => Option.noConfusion he, hmem4⟩,
        hnode4, rfl, hret4, hframe4⟩

theorem insert_empty_spec {c : Cursor α} (e : α) (hinv : Inv c.list []) (hg : c.node = none) :
    Cursor.insert_after c e = Cursor.insert_before c e ∧
    CInv (Cursor.insert_after c e) [c.list.fresh] ∧
    (Cursor.insert_after c e).node = some c.list.fresh ∧
    (Cursor.insert_after c e).list.front = some c.list.fresh ∧
    (Cursor.insert_after c e).list.back = some c.list.fresh ∧
    (Cursor.insert_after c e).list.len = c.list.len + 1 ∧
    (Cursor.insert_after c e).list.fresh = c.list.fresh + 1 := by
  obtain ⟨hdseg, hfront, hback, hlen, hnodup, hfresh⟩ := hinv
  have hia : Cursor.insert_after c e =
      ⟨⟨c.list.heap.set c.list.fresh ⟨e, none, none⟩, c.list.fresh + 1,
        some c.list.fresh, some c.list.fresh, c.list.len + 1⟩, some c.list.fresh⟩ := by
    simp only [Cursor.insert_after, Cursor.insert, hg]
  have hib : Cursor.insert_before c e =
      ⟨⟨c.list.heap.set c.list.fresh ⟨e, none, none⟩, c.list.fresh + 1,
        some c.list.fresh, some c.list.fresh, c.list.len + 1⟩, some c.list.fresh⟩ := by
    simp only [Cursor.insert_before, Cursor.insert, hg]
  rw [hia, hib]
  have hseg : dseg (c.list.heap.set c.list.fresh ⟨e, none, none⟩) none [c.list.fresh] none := by
    rw [dseg_cons]
    exact ⟨⟨e, none, none⟩, Heap.set_self _ _ _, rfl, rfl, dseg_nil _ _ _⟩
  have hln : c.list.len + 1 = [c.list.fresh].length := by
    rw [hlen]
    rfl
  have hmem : ∀ m, (some c.list.fresh : Option Nat) = some m → m ∈ [c.list.fresh] := by
    intro m hm
    cases hm
    simp
  have hfrk : ∀ k ∈ [c.list.fresh], k < c.list.fresh + 1 := by
    intro k hk
    rw [List.mem_singleton] at hk
    omega
  exact ⟨rfl, ⟨⟨hseg, rfl, rfl, hln, List.nodup_singleton _, hfrk⟩,
    fun he => Option.noConfusion he, hmem⟩, rfl, rfl, rfl, rfl, rfl⟩

theorem insert_after_spec {c : Cursor α} {L R : List Nat} {cn : Nat} (e : α)
    (hinv : Inv c.list (L ++ cn :: R)) (hn : c.node = some cn) :
    CInv (Cursor.insert_after c e) (L ++ cn :: c.list.fresh :: R) ∧
    (Cursor.insert_after c e).node = some cn ∧
    (Cursor.insert_after c e).list.len = c.list.len + 1 ∧
    (Cursor.insert_after c e).list.front = c.list.front ∧
    (c.list.back = some cn → (Cursor.insert_after c e).list.back = some c.list.fresh) ∧
    (c.list.back ≠ some cn → (Cursor.insert_after c e).list.back = c.list.back) ∧
    Heap.getNext (Cursor.insert_after c e).list.heap cn = some c.list.fresh ∧
    Heap.getPrev (Cursor.insert_after c e).list.heap c.list.fresh = some cn ∧
    ((Cursor.insert_after c e).list.heap c.list.fresh).map Node.element = some e := by
  obtain ⟨hdseg, hfront, hback, hlen, hnodup, hfresh⟩ := hinv
  obtain ⟨hnL, hnR, hdisLR, hLn, hLnd, hRnd⟩ := nodup_mid hnodup
  obtain ⟨nd, hnd, hprev, hnext, hdL, hdR⟩ := dseg_extract hdseg
  have hcnm : cn ∈ L ++ cn :: R := by simp
  have hcnf : cn < c.list.fresh := hfresh cn hcnm
  have hcne : cn ≠ c.list.fresh := Nat.ne_of_lt hcnf
  cases R with
  | nil =>
    rw [headOr_nil] at hnext
    have hgn : c.list.heap.getNext cn = none := by
      rw [Heap.getNext, hnd]
      exact hnext
    have hbeq : c.list.back = some cn := by
      rw [hback, lastOr_concat]
    have hia : Cursor.insert_after c e =
        ⟨⟨link (c.list.heap.set c.list.fresh ⟨e, none, none⟩) cn c.list.fresh,
          c.list.fresh + 1, some c.list.fresh, c.list.front, c.list.len + 1⟩, some cn⟩ := by
      simp [Cursor.insert_after, Cursor.insert, hn, insert_new_after, hgn, hbeq]
    rw [hia]
    have hset : (c.list.heap.set c.list.fresh ⟨e, none, none⟩) cn = some nd := by
      rw [Heap.set_other _ _ hcne]
      exact hnd
    have hcn2 : (link (c.list.heap.set c.list.fresh ⟨e, none, none⟩) cn c.list.fresh) cn =
        some { nd with next := some c.list.fresh } := by
      rw [link, Heap.setPrev_other _ _ hcne, Heap.setNext_self hset]
    have h0f : ((c.list.heap.set c.list.fresh ⟨e, none, none⟩).setNext cn
        (some c.list.fresh)) c.list.fresh = some ⟨e, none, none⟩ := by
      rw [Heap.setNext_other _ _ (Ne.symm hcne), Heap.set_self]
    have hfr2 : (link (c.list.heap.set c.list.fresh ⟨e, none, none⟩) cn c.list.fresh)
        c.list.fresh = some ⟨e, none, some cn⟩ := by
      rw [link]
      exact Heap.setPrev_self h0f (some cn)
    have hag : ∀ k ∈ L,
        (link (c.list.heap.set c.list.fresh ⟨e, none, none⟩) cn c.list.fresh) k =
          c.list.heap k := by
      intro k hk
      have hkf : k ≠ c.list.fresh := Nat.ne_of_lt (hfresh k (by simp [hk]))
      rw [link, Heap.setPrev_other _ _ hkf, Heap.setNext_other _ _ (hLn k hk),
        Heap.set_other _ _ hkf]
    have hseg : dseg (link (c.list.heap.set c.list.fresh ⟨e, none, none⟩) cn c.list.fresh)
        none (L ++ cn :: c.list.fresh :: []) none := by
      rw [dseg_append]
      refine ⟨?_, ?_⟩
      · rw [headOr_cons, dseg_congr hag]
        exact hdL
      · rw [dseg_cons]
        refine ⟨{ nd with next := some c.list.fresh }, hcn2, hprev, rfl, ?_⟩
        rw [dseg_cons]
        exact ⟨⟨e, none, some cn⟩, hfr2, rfl, rfl, dseg_nil _ _ _⟩
    have hfr : c.list.front = headOr (L ++ cn :: c.list.fresh :: []) none := by
      simp only [hfront, headOr_append, headOr_cons]
    have hbk : (some c.list.fresh : Option Nat) =
        lastOr (L ++ cn :: c.list.fresh :: []) none := by
      simp only [lastOr_append, lastOr_cons, lastOr_nil]
    have hln : c.list.len + 1 = (L ++ cn :: c.list.fresh :: []).length := by
      simp only [hlen, List.length_append, List.length_cons, List.length_nil]
    have hnodup2 : (L ++ cn :: c.list.fresh :: []).Nodup := by
      rw [(by simp : L ++ cn :: c.list.fresh :: [] = (L ++ [cn]) ++ [c.list.fresh])]
      rw [List.nodup_append]
      refine ⟨hnodup, List.nodup_singleton _, ?_⟩
      intro a ha hb
      rw [List.mem_singleton] at hb
      have := hfresh a ha
      omega
    have hfrk : ∀ k ∈ L ++ cn :: c.list.fresh :: [], k < c.list.fresh + 1 := by
      intro k hk
      simp only [List.mem_append, List.mem_cons] at hk
      rcases hk with hk | hk | hk | hk
      · have := hfresh k (by simp [hk])
        omega
      · have := hfresh k (by simp [hk])
        omega
      · subst hk
        omega
      · cases hk
    have hmem : ∀ m, (some cn : Option Nat) = some m →
        m ∈ L ++ cn :: c.list.fresh :: [] := by
      intro m hm
      cases hm
      simp
    have hgn2 : Heap.getNext
        (link (c.list.heap.set c.list.fresh ⟨e, none, none⟩) cn c.list.fresh) cn =
          some c.list.fresh := by
      rw [Heap.getNext, hcn2]
    have hgp2 : Heap.getPrev
        (link (c.list.heap.set c.list.fresh ⟨e, none, none⟩) cn c.list.fresh)
          c.list.fresh = some cn := by
      rw [Heap.getPrev, hfr2]
    have hel2 : ((link (c.list.heap.set c.list.fresh ⟨e, none, none⟩) cn c.list.fresh)
        c.list.fresh).map Node.element = some e := by
      rw [hfr2]
      rfl
    exact ⟨⟨⟨hseg, hfr, hbk, hln, hnodup2, hfrk⟩, fun he => Option.noConfusion he, hmem⟩,
      rfl, rfl, rfl, fun _ => rfl, fun hne => absurd hbeq hne, hgn2, hgp2, hel2⟩
  | cons r0 R1 =>
    rw [headOr_cons] at hnext
    have hrR : r0 ∈ r0 :: R1 := by simp
    have hrcn : r0 ≠ cn := fun he => hnR (by rw [← he]; exact hrR)
    have hrf : r0 < c.list.fresh := hfresh r0 (by simp)
    have hrfe : r0 ≠ c.list.fresh := Nat.ne_of_lt hrf
    obtain ⟨ndr, hndr, hrprev, hrnext, hdR1⟩ :=
      (dseg_cons c.list.heap (some cn) none r0 R1).mp hdR
    rw [List.nodup_cons] at hRnd
    obtain ⟨hr0R1, hR1nd⟩ := hRnd
    have hgn : c.list.heap.getNext cn = some r0 := by
      rw [Heap.getNext, hnd]
      exact hnext
    have hbval : c.list.back = lastOr R1 (some r0) := by
      simp only [hback, lastOr_append, lastOr_cons]
    have hbne : ¬(c.list.back = some cn) := by
      rw [hbval]
      intro hb
      rcases mem_of_lastOr hb with hm | hm
      · exact hnR (List.mem_cons_of_mem r0 hm)
      · exact hrcn (Option.some.inj hm)
    have hia : Cursor.insert_after c e =
        ⟨⟨insert_between (c.list.heap.set c.list.fresh ⟨e, none, none⟩) c.list.fresh cn r0,
          c.list.fresh + 1, c.list.back, c.list.front, c.list.len + 1⟩, some cn⟩ := by
      simp [Cursor.insert_after, Cursor.insert, hn, insert_new_after, hgn, hbne]
    rw [hia]
    have hset : (c.list.heap.set c.list.fresh ⟨e, none, none⟩) cn = some nd := by
      rw [Heap.set_other _ _ hcne]
      exact hnd
    have hBcn : (insert_between (c.list.heap.set c.list.fresh ⟨e, none, none⟩)
        c.list.fresh cn r0) cn = some { nd with next := some c.list.fresh } := by
      rw [insert_between, link, link, Heap.setPrev_other _ _ (Ne.symm hrcn),
        Heap.setNext_other _ _ hcne, Heap.setPrev_other _ _ hcne,
        Heap.setNext_self hset]
    have h0f : ((c.list.heap.set c.list.fresh ⟨e, none, none⟩).setNext cn
        (some c.list.fresh)) c.list.fresh = some ⟨e, none, none⟩ := by
      rw [Heap.setNext_other _ _ (Ne.symm hcne), Heap.set_self]
    have hAf : (((c.list.heap.set c.list.fresh ⟨e, none, none⟩).setNext cn
        (some c.list.fresh)).setPrev c.list.fresh (some cn)) c.list.fresh =
        some ⟨e, none, some cn⟩ := Heap.setPrev_self h0f (some cn)
    have hBf : (insert_between (c.list.heap.set c.list.fresh ⟨e, none, none⟩)
        c.list.fresh cn r0) c.list.fresh = some ⟨e, some r0, some cn⟩ := by
      rw [insert_between, link, link, Heap.setPrev_other _ _ (Ne.symm hrfe),
        Heap.setNext_self hAf]
    have h0r : ((c.list.heap.set c.list.fresh ⟨e, none, none⟩).setNext cn
        (some c.list.fresh)) r0 = some ndr := by
      rw [Heap.setNext_other _ _ hrcn, Heap.set_other _ _ hrfe]
      exact hndr
    have hAr : (((c.list.heap.set c.list.fresh ⟨e, none, none⟩).setNext cn
        (some c.list.fresh)).setPrev c.list.fresh (some cn)) r0 = some ndr := by
      rw [Heap.setPrev_other _ _ hrfe]
      exact h0r
    have hA2r : ((((c.list.heap.set c.list.fresh ⟨e, none, none⟩).setNext cn
        (some c.list.fresh)).setPrev c.list.fresh (some cn)).setNext c.list.fresh
          (some r0)) r0 = some ndr := by
      rw [Heap.setNext_other _ _ hrfe]
      exact hAr
    have hBr : (insert_between (c.list.heap.set c.list.fresh ⟨e, none, none⟩)
        c.list.fresh cn r0) r0 = some { ndr with prev := some c.list.fresh } := by
      rw [insert_between, link, link]
      exact Heap.setPrev_self hA2r (some c.list.fresh)
    have hagk : ∀ k, k ≠ cn → k ≠ c.list.fresh → k ≠ r0 →
        (insert_between (c.list.heap.set c.list.fresh ⟨e, none, none⟩)
          c.list.fresh cn r0) k = c.list.heap k := by
      intro k h1 h2 h3
      rw [insert_between, link, link, Heap.setPrev_other _ _ h3,
        Heap.setNext_other _ _ h2, Heap.setPrev_other _ _ h2,
        Heap.setNext_other _ _ h1, Heap.set_other _ _ h2]
    have hagL : ∀ k ∈ L,
        (insert_between (c.list.heap.set c.list.fresh ⟨e, none, none⟩)
          c.list.fresh cn r0) k = c.list.heap k :=
      fun k hk => hagk k (hLn k hk) (Nat.ne_of_lt (hfresh k (by simp [hk])))
        (fun he => hdisLR k hk (by rw [he]; exact hrR))
    have hagR : ∀ k ∈ R1,
        (insert_between (c.list.heap.set c.list.fresh ⟨e, none, none⟩)
          c.list.fresh cn r0) k = c.list.heap k :=
      fun k hk => hagk k
        (fun he => hnR (by rw [← he]; exact List.mem_cons_of_mem r0 hk))
        (Nat.ne_of_lt (hfresh k (by
          simp only [List.mem_append, List.mem_cons]
          tauto)))
        (fun he => hr0R1 (by rw [← he]; exact hk))
    have hseg : dseg (insert_between (c.list.heap.set c.list.fresh ⟨e, none, none⟩)
        c.list.fresh cn r0) none (L ++ cn :: c.list.fresh :: r0 :: R1) none := by
      rw [dseg_append]
      refine ⟨?_, ?_⟩
      · rw [headOr_cons, dseg_congr hagL]
        exact hdL
      · rw [dseg_cons]
        refine ⟨{ nd with next := some c.list.fresh }, hBcn, hprev, rfl, ?_⟩
        rw [dseg_cons]
        refine ⟨⟨e, some r0, some cn⟩, hBf, rfl, rfl, ?_⟩
        rw [dseg_cons]
        refine ⟨{ ndr with prev := some c.list.fresh }, hBr, rfl, hrnext, ?_⟩
        rw [dseg_congr hagR]
        exact hdR1
    have hfr : c.list.front = headOr (L ++ cn :: c.list.fresh :: r0 :: R1) none := by
      simp only [hfront, headOr_append, headOr_cons]
    have hbk : c.list.back = lastOr (L ++ cn :: c.list.fresh :: r0 :: R1) none := by
      simp only [hbval, lastOr_append, lastOr_cons]
    have hln : c.list.len + 1 = (L ++ cn :: c.list.fresh :: r0 :: R1).length := by
      simp only [hlen, List.length_append, List.length_cons]
      omega
    have hnodup2 : (L ++ cn :: c.list.fresh :: r0 :: R1).Nodup := by
      rw [(by simp : L ++ cn :: c.list.fresh :: r0 :: R1 =
        (L ++ [cn]) ++ c.list.fresh :: r0 :: R1)]
      rw [List.nodup_append]
      refine ⟨List.Nodup.sublist
        (List.Sublist.append_left ((List.nil_sublist (r0 :: R1)).cons₂ cn) L) hnodup,
        ?_, ?_⟩
      · rw [List.nodup_cons]
        refine ⟨fun hm => ?_, List.nodup_cons.mpr ⟨hr0R1, hR1nd⟩⟩
        have := hfresh c.list.fresh (by
          simp only [List.mem_append, List.mem_cons] at hm ⊢
          tauto)
        omega
      · intro a ha hb
        have haf : a < c.list.fresh := hfresh a (by
          simp only [List.mem_append, List.mem_cons, List.mem_singleton] at ha ⊢
          tauto)
        rcases List.mem_cons.mp hb with hb1 | hb1
        · rw [hb1] at haf
          exact absurd haf (lt_irrefl _)
        · rcases List.mem_append.mp ha with ha1 | ha1
          · exact hdisLR a ha1 hb1
          · rw [List.mem_singleton] at ha1
            rw [ha1] at hb1
            exact hnR hb1
    have hfrk : ∀ k ∈ L ++ cn :: c.list.fresh :: r0 :: R1, k < c.list.fresh + 1 := by
      intro k hk
      simp only [List.mem_append, List.mem_cons] at hk
      rcases hk with hk | hk | hk | hk | hk
      · have := hfresh k (by simp [hk])
        omega
      · have := hfresh k (by simp [hk])
        omega
      · subst hk
        omega
      · have := hfresh k (by simp [hk])
        omega
      · have := hfresh k (by
          simp only [List.mem_append, List.mem_cons]
          tauto)
        omega
    have hmem : ∀ m, (some cn : Option Nat) = some m →
        m ∈ L ++ cn :: c.list.fresh :: r0 :: R1 := by
      intro m hm
      cases hm
      simp
    have hgn2 : Heap.getNext (insert_between (c.list.heap.set c.list.fresh ⟨e, none, none⟩)
        c.list.fresh cn r0) cn = some c.list.fresh := by
      rw [Heap.getNext, hBcn]
    have hgp2 : Heap.getPrev (insert_between (c.list.heap.set c.list.fresh ⟨e, none, none⟩)
        c.list.fresh cn r0) c.list.fresh = some cn := by
      rw [Heap.getPrev, hBf]
    have hel2 : ((insert_between (c.list.heap.set c.list.fresh ⟨e, none, none⟩)
        c.list.fresh cn r0) c.list.fresh).map Node.element = some e := by
      rw [hBf]
      rfl
    exact ⟨⟨⟨hseg, hfr, hbk, hln, hnodup2, hfrk⟩, fun he => Option.noConfusion he, hmem⟩,
      rfl, rfl, rfl, fun hb => absurd hb hbne, fun _ => rfl, hgn2, hgp2, hel2⟩

theorem insert_before_spec {c : Cursor α} {L R : List Nat} {cn : Nat} (e : α)
    (hinv : Inv c.list (L ++ cn :: R)) (hn : c.node = some cn) :
    CInv (Cursor.insert_before c e) (L ++ c.list.fresh :: cn :: R) ∧
    (Cursor.insert_before c e).node = some cn ∧
    (Cursor.insert_before c e).list.len = c.list.len + 1 ∧
    (Cursor.insert_before c e).list.back = c.list.back ∧
    (c.list.front = some cn → (Cursor.insert_before c e).list.front = some c.list.fresh) ∧
    (c.list.front ≠ some cn → (Cursor.insert_before c e).list.front = c.list.front) ∧
    Heap.getPrev (Cursor.insert_before c e).list.heap cn = some c.list.fresh ∧
    Heap.getNext (Cursor.insert_before c e).list.heap c.list.fresh = some cn ∧
    ((Cursor.insert_before c e).list.heap c.list.fresh).map Node.element = some e := by
  obtain ⟨hdseg, hfront, hback, hlen, hnodup, hfresh⟩ := hinv
  obtain ⟨hnL, hnR, hdisLR, hLn, hLnd, hRnd⟩ := nodup_mid hnodup
  obtain ⟨nd, hnd, hprev, hnext, hdL, hdR⟩ := dseg_extract hdseg
  have hcnm : cn ∈ L ++ cn :: R := by simp
  have hcnf : cn < c.list.fresh := hfresh cn hcnm
  have hcne : cn ≠ c.list.fresh := Nat.ne_of_lt hcnf
  rcases List.eq_nil_or_concat' L with rfl | ⟨L1, p, rfl⟩
  · -- cursor on the front node: the new node becomes the front
    rw [lastOr_nil] at hprev
    have hgp : c.list.heap.getPrev cn = none := by
      rw [Heap.getPrev, hnd]
      exact hprev
    have hfeq : c.list.front = some cn := by
      rw [hfront, List.nil_append, headOr_cons]
    have hib : Cursor.insert_before c e =
        ⟨⟨link (c.list.heap.set c.list.fresh ⟨e, none, none⟩) c.list.fresh cn,
          c.list.fresh + 1, c.list.back, some c.list.fresh, c.list.len + 1⟩, some cn⟩ := by
      simp [Cursor.insert_before, Cursor.insert, hn, insert_new_before, hgp, hfeq]
    rw [hib]
    have h0f : (c.list.heap.set c.list.fresh ⟨e, none, none⟩).setNext c.list.fresh
        (some cn) c.list.fresh = some ⟨e, some cn, none⟩ := by
      rw [Heap.setNext_self (Heap.set_self _ _ _)]
    have hBf : (link (c.list.heap.set c.list.fresh ⟨e, none, none⟩) c.list.fresh cn)
        c.list.fresh = some ⟨e, some cn, none⟩ := by
      rw [link, Heap.setPrev_other _ _ (Ne.symm hcne)]
      exact h0f
    have h0cn : ((c.list.heap.set c.list.fresh ⟨e, none, none⟩).setNext c.list.fresh
        (some cn)) cn = some nd := by
      rw [Heap.setNext_other _ _ hcne, Heap.set_other _ _ hcne]
      exact hnd
    have hBcn : (link (c.list.heap.set c.list.fresh ⟨e, none, none⟩) c.list.fresh cn) cn =
        some { nd with prev := some c.list.fresh } := by
      rw [link]
      exact Heap.setPrev_self h0cn (some c.list.fresh)
    have hagR : ∀ k ∈ R,
        (link (c.list.heap.set c.list.fresh ⟨e, none, none⟩) c.list.fresh cn) k =
          c.list.heap k := by
      intro k hk
      have hkf : k ≠ c.list.fresh := Nat.ne_of_lt (hfresh k (by simp [hk]))
      have hkcn : k ≠ cn := fun he => hnR (by rw [← he]; exact hk)
      rw [link, Heap.setPrev_other _ _ hkcn, Heap.setNext_other _ _ hkf,
        Heap.set_other _ _ hkf]
    have hseg : dseg (link (c.list.heap.set c.list.fresh ⟨e, none, none⟩) c.list.fresh cn)
        none ([] ++ c.list.fresh :: cn :: R) none := by
      rw [List.nil_append, dseg_cons]
      refine ⟨⟨e, some cn, none⟩, hBf, rfl, rfl, ?_⟩
      rw [dseg_cons]
      refine ⟨{ nd with prev := some c.list.fresh }, hBcn, rfl, hnext, ?_⟩
      rw [dseg_congr hagR]
      exact hdR
    have hbk : c.list.back = lastOr ([] ++ c.list.fresh :: cn :: R) none := by
      simp only [hback, List.nil_append, lastOr_cons]
    have hln : c.list.len + 1 = ([] ++ c.list.fresh :: cn :: R).length := by
      simp only [hlen, List.nil_append, List.length_cons]
    have hnodup2 : ([] ++ c.list.fresh :: cn :: R).Nodup := by
      rw [List.nil_append, List.nodup_cons]
      refine ⟨fun hm => ?_, hnodup⟩
      have := hfresh c.list.fresh hm
      omega
    have hfrk : ∀ k ∈ [] ++ c.list.fresh :: cn :: R, k < c.list.fresh + 1 := by
      intro k hk
      simp only [List.nil_append, List.mem_cons] at hk
      rcases hk with hk | hk | hk
      · subst hk
        omega
      · have := hfresh k (by simp [hk])
        omega
      · have := hfresh k (by simp [hk])
        omega
    have hmem : ∀ m, (some cn : Option Nat) = some m →
        m ∈ [] ++ c.list.fresh :: cn :: R := by
      intro m hm
      cases hm
      simp
    have hgp2 : Heap.getPrev
        (link (c.list.heap.set c.list.fresh ⟨e, none, none⟩) c.list.fresh cn) cn =
          some c.list.fresh := by
      rw [Heap.getPrev, hBcn]
    have hgn2 : Heap.getNext
        (link (c.list.heap.set c.list.fresh ⟨e, none, none⟩) c.list.fresh cn)
          c.list.fresh = some cn := by
      rw [Heap.getNext, hBf]
    have hel2 : ((link (c.list.heap.set c.list.fresh ⟨e, none, none⟩) c.list.fresh cn)
        c.list.fresh).map Node.element = some e := by
      rw [hBf]
      rfl
    exact ⟨⟨⟨hseg, rfl, hbk, hln, hnodup2, hfrk⟩, fun he => Option.noConfusion he, hmem⟩,
      rfl, rfl, rfl, fun _ => rfl, fun hne => absurd hfeq hne, hgp2, hgn2, hel2⟩
  · -- cursor on an interior or back node: the front is unchanged
    rw [lastOr_concat] at hprev
    have hpL : p ∈ L1 ++ [p] := by simp
    have hpn : p ≠ cn := hLn p hpL
    have hpf : p < c.list.fresh := hfresh p (by simp)
    have hpfe : p ≠ c.list.fresh := Nat.ne_of_lt hpf
    obtain ⟨hpL1, hL1nd⟩ := nodup_concat hLnd
    rw [dseg_append] at hdL
    obtain ⟨hdL1, hdp⟩ := hdL
    rw [headOr_cons] at hdL1
    obtain ⟨ndp, hndp, hpprev, hpnext, -⟩ :=
      (dseg_cons c.list.heap (lastOr L1 none) (some cn) p []).mp hdp
    rw [headOr_nil] at hpnext
    have hgp : c.list.heap.getPrev cn = some p := by
      rw [Heap.getPrev, hnd]
      exact hprev
    have hfne : ¬(c.list.front = some cn) := by
      have hfval : c.list.front = headOr (L1 ++ [p]) (some cn) := by
        simp only [hfront, headOr_append, headOr_cons]
      intro hf
      rw [hfval] at hf
      cases L1 with
      | nil =>
        rw [List.nil_append, headOr_cons] at hf
        exact hLn p hpL (Option.some.inj hf)
      | cons a t =>
        rw [List.cons_append, headOr_cons] at hf
        exact hLn a (by simp) (Option.some.inj hf)
    have hib : Cursor.insert_before c e =
        ⟨⟨insert_between (c.list.heap.set c.list.fresh ⟨e, none, none⟩) c.list.fresh p cn,
          c.list.fresh + 1, c.list.back, c.list.front, c.list.len + 1⟩, some cn⟩ := by
      simp [Cursor.insert_before, Cursor.insert, hn, insert_new_before, hgp, hfne]
    rw [hib]
    have hset : (c.list.heap.set c.list.fresh ⟨e, none, none⟩) p = some ndp := by
      rw [Heap.set_other _ _ hpfe]
      exact hndp
    have hBp : (insert_between (c.list.heap.set c.list.fresh ⟨e, none, none⟩)
        c.list.fresh p cn) p = some { ndp with next := some c.list.fresh } := by
      rw [insert_between, link, link, Heap.setPrev_other _ _ hpn,
        Heap.setNext_other _ _ hpfe, Heap.setPrev_other _ _ hpfe,
        Heap.setNext_self hset]
    have h0f : ((c.list.heap.set c.list.fresh ⟨e, none, none⟩).setNext p
        (some c.list.fresh)) c.list.fresh = some ⟨e, none, none⟩ := by
      rw [Heap.setNext_other _ _ (Ne.symm hpfe), Heap.set_self]
    have hAf : (((c.list.heap.set c.list.fresh ⟨e, none, none⟩).setNext p
        (some c.list.fresh)).setPrev c.list.fresh (some p)) c.list.fresh =
        some ⟨e, none, some p⟩ := Heap.setPrev_self h0f (some p)
    have hBf : (insert_between (c.list.heap.set c.list.fresh ⟨e, none, none⟩)
        c.list.fresh p cn) c.list.fresh = some ⟨e, some cn, some p⟩ := by
      rw [insert_between, link, link, Heap.setPrev_other _ _ (Ne.symm hcne),
        Heap.setNext_self hAf]
    have h0cn : ((c.list.heap.set c.list.fresh ⟨e, none, none⟩).setNext p
        (some c.list.fresh)) cn = some nd := by
      rw [Heap.setNext_other _ _ (Ne.symm hpn), Heap.set_other _ _ hcne]
      exact hnd
    have hAcn : (((c.list.heap.set c.list.fresh ⟨e, none, none⟩).setNext p
        (some c.list.fresh)).setPrev c.list.fresh (some p)) cn = some nd := by
      rw [Heap.setPrev_other _ _ hcne]
      exact h0cn
    have hA2cn : ((((c.list.heap.set c.list.fresh ⟨e, none, none⟩).setNext p
        (some c.list.fresh)).setPrev c.list.fresh (some p)).setNext c.list.fresh
          (some cn)) cn = some nd := by
      rw [Heap.setNext_other _ _ hcne]
      exact hAcn
    have hBcn : (insert_between (c.list.heap.set c.list.fresh ⟨e, none, none⟩)
        c.list.fresh p cn) cn = some { nd with prev := some c.list.fresh } := by
      rw [insert_between, link, link]
      exact Heap.setPrev_self hA2cn (some c.list.fresh)
    have hagk : ∀ k, k ≠ p → k ≠ c.list.fresh → k ≠ cn →
        (insert_between (c.list.heap.set c.list.fresh ⟨e, none, none⟩)
          c.list.fresh p cn) k = c.list.heap k := by
      intro k h1 h2 h3
      rw [insert_between, link, link, Heap.setPrev_other _ _ h3,
        Heap.setNext_other _ _ h2, Heap.setPrev_other _ _ h2,
        Heap.setNext_other _ _ h1, Heap.set_other _ _ h2]
    have hagL : ∀ k ∈ L1,
        (insert_between (c.list.heap.set c.list.fresh ⟨e, none, none⟩)
          c.list.fresh p cn) k = c.list.heap k :=
      fun k hk => hagk k (fun he => hpL1 (by rw [← he]; exact hk))
        (Nat.ne_of_lt (hfresh k (by simp [hk])))
        (hLn k (by simp [hk]))
    have hagR : ∀ k ∈ R,
        (insert_between (c.list.heap.set c.list.fresh ⟨e, none, none⟩)
          c.list.fresh p cn) k = c.list.heap k :=
      fun k hk => hagk k
        (fun he => hdisLR p hpL (by rw [← he]; exact hk))
        (Nat.ne_of_lt (hfresh k (by
          simp only [List.mem_append, List.mem_cons]
          tauto)))
        (fun he => hnR (by rw [← he]; exact hk))
    have hseg : dseg (insert_between (c.list.heap.set c.list.fresh ⟨e, none, none⟩)
        c.list.fresh p cn) none ((L1 ++ [p]) ++ c.list.fresh :: cn :: R) none := by
      rw [(by simp : (L1 ++ [p]) ++ c.list.fresh :: cn :: R =
        L1 ++ p :: c.list.fresh :: cn :: R), dseg_append]
      refine ⟨?_, ?_⟩
      · rw [headOr_cons, dseg_congr hagL]
        exact hdL1
      · rw [dseg_cons]
        refine ⟨{ ndp with next := some c.list.fresh }, hBp, hpprev, rfl, ?_⟩
        rw [dseg_cons]
        refine ⟨⟨e, some cn, some p⟩, hBf, rfl, rfl, ?_⟩
        rw [dseg_cons]
        refine ⟨{ nd with prev := some c.list.fresh }, hBcn, rfl, hnext, ?_⟩
        rw [dseg_congr hagR]
        exact hdR
    have hfr : c.list.front = headOr ((L1 ++ [p]) ++ c.list.fresh :: cn :: R) none := by
      simp only [hfront, headOr_append, headOr_cons]
    have hbk : c.list.back = lastOr ((L1 ++ [p]) ++ c.list.fresh :: cn :: R) none := by
      simp only [hback, lastOr_append, lastOr_cons, lastOr_nil]
    have hln : c.list.len + 1 = ((L1 ++ [p]) ++ c.list.fresh :: cn :: R).length := by
      simp only [hlen, List.length_append, List.length_cons, List.length_nil]
      omega
    have hnodup2 : ((L1 ++ [p]) ++ c.list.fresh :: cn :: R).Nodup := by
      rw [List.nodup_append]
      refine ⟨hLnd, ?_, ?_⟩
      · rw [List.nodup_cons]
        refine ⟨fun hm => ?_, List.nodup_cons.mpr ⟨hnR, hRnd⟩⟩
        have := hfresh c.list.fresh (by
          simp only [List.mem_append, List.mem_cons] at hm ⊢
          tauto)
        omega
      · intro a ha hb
        have haf : a < c.list.fresh := hfresh a (by
          simp only [List.mem_append, List.mem_cons, List.mem_singleton] at ha ⊢
          tauto)
        rcases List.mem_cons.mp hb with hb1 | hb1
        · rw [hb1] at haf
          exact absurd haf (lt_irrefl _)
        · rcases List.mem_cons.mp hb1 with hb2 | hb2
          · rw [hb2] at ha
            exact hLn cn ha rfl
          · exact hdisLR a ha hb2
    have hfrk : ∀ k ∈ (L1 ++ [p]) ++ c.list.fresh :: cn :: R, k < c.list.fresh + 1 := by
      intro k hk
      rcases List.mem_append.mp hk with hk1 | hk1
      · have := hfresh k (List.mem_append_left _ hk1)
        omega
      · rcases List.mem_cons.mp hk1 with hk2 | hk2
        · subst hk2
          omega
        · have := hfresh k (List.mem_append_right _ hk2)
          omega
    have hmem : ∀ m, (some cn : Option Nat) = some m →
        m ∈ (L1 ++ [p]) ++ c.list.fresh :: cn :: R := by
      intro m hm
      cases hm
      simp
    have hgp2 : Heap.getPrev (insert_between (c.list.heap.set c.list.fresh ⟨e, none, none⟩)
        c.list.fresh p cn) cn = some c.list.fresh := by
      rw [Heap.getPrev, hBcn]
    have hgn2 : Heap.getNext (insert_between (c.list.heap.set c.list.fresh ⟨e, none, none⟩)
        c.list.fresh p cn) c.list.fresh = some cn := by
      rw [Heap.getNext, hBf]
    have hel2 : ((insert_between (c.list.heap.set c.list.fresh ⟨e, none, none⟩)
        c.list.fresh p cn) c.list.fresh).map Node.element = some e := by
      rw [hBf]
      rfl
    exact ⟨⟨⟨hseg, hfr, hbk, hln, hnodup2, hfrk⟩, fun he => Option.noConfusion he, hmem⟩,
      rfl, rfl, rfl, fun hf => absurd hf hfne, fun _ => rfl, hgp2, hgn2, hel2⟩

theorem step_next_cinv {c : Cursor α} {ids : List Nat} (hinv : CInv c ids) :
    CInv (Cursor.next c).1 ids := by
  obtain ⟨hI, hg, hm⟩ := hinv
  cases hn : c.node with
  | none =>
    have hid : (Cursor.next c).1 = c := by simp [Cursor.next, Cursor.step, hn]
    rw [hid]
    exact ⟨hI, hg, hm⟩
  | some n =>
    obtain ⟨L, R, rfl⟩ := List.append_of_mem (hm n hn)
    obtain ⟨nd, hnd, hprev, hnext, hdL, hdR⟩ := dseg_extract hI.1
    cases R with
    | nil =>
      rw [headOr_nil] at hnext
      have hgn : c.list.heap.getNext n = none := by
        rw [Heap.getNext, hnd]
        exact hnext
      have hid : (Cursor.next c).1 = c := by simp [Cursor.next, Cursor.step, hn, hgn]
      rw [hid]
      exact ⟨hI, hg, hm⟩
    | cons r0 R1 =>
      rw [headOr_cons] at hnext
      have hgn : c.list.heap.getNext n = some r0 := by
        rw [Heap.getNext, hnd]
        exact hnext
      have hstep : (Cursor.next c).1 = ⟨c.list, some r0⟩ := by
        simp [Cursor.next, Cursor.step, hn, hgn]
      rw [hstep]
      exact ⟨hI, fun he => Option.noConfusion he, fun m hm2 => by cases hm2; simp⟩

theorem step_prev_cinv {c : Cursor α} {ids : List Nat} (hinv : CInv c ids) :
    CInv (Cursor.prev c).1 ids := by
  obtain ⟨hI, hg, hm⟩ := hinv
  cases hn : c.node with
  | none =>
    have hid : (Cursor.prev c).1 = c := by simp [Cursor.prev, Cursor.step, hn]
    rw [hid]
    exact ⟨hI, hg, hm⟩
  | some n =>
    obtain ⟨L, R, rfl⟩ := List.append_of_mem (hm n hn)
    obtain ⟨nd, hnd, hprev, hnext, hdL, hdR⟩ := dseg_extract hI.1
    rcases List.eq_nil_or_concat' L with rfl | ⟨L1, p, rfl⟩
    · rw [lastOr_nil] at hprev
      have hgp : c.list.heap.getPrev n = none := by
        rw [Heap.getPrev, hnd]
        exact hprev
      have hid : (Cursor.prev c).1 = c := by simp [Cursor.prev, Cursor.step, hn, hgp]
      rw [hid]
      exact ⟨hI, hg, hm⟩
    · rw [lastOr_concat] at hprev
      have hgp : c.list.heap.getPrev n = some p := by
        rw [Heap.getPrev, hnd]
        exact hprev
      have hstep : (Cursor.prev c).1 = ⟨c.list, some p⟩ := by
        simp [Cursor.prev, Cursor.step, hn, hgp]
      rw [hstep]
      exact ⟨hI, fun he => Option.noConfusion he, fun m hm2 => by cases hm2; simp⟩

theorem applyOp_cinv {c : Cursor α} {ids : List Nat} (hinv : CInv c ids) (o : Op α) :
    ∃ ids2, CInv (applyOp c o) ids2 := by
  obtain ⟨hI, hg, hm⟩ := hinv
  cases o with
  | next => exact ⟨ids, step_next_cinv ⟨hI, hg, hm⟩⟩
  | prev => exact ⟨ids, step_prev_cinv ⟨hI, hg, hm⟩⟩
  | take =>
    cases hn : c.node with
    | none =>
      have hid : (Cursor.take c).1 = c := by simp [Cursor.take, hn]
      refine ⟨ids, ?_⟩
      show CInv (Cursor.take c).1 ids
      rw [hid]
      exact ⟨hI, hg, hm⟩
    | some n =>
      obtain ⟨L, R, rfl⟩ := List.append_of_mem (hm n hn)
      exact ⟨L ++ R, (take_spec hI hn).1⟩
  | insert_after e =>
    cases hn : c.node with
    | none =>
      have hids : ids = [] := hg hn
      subst hids
      exact ⟨[c.list.fresh], (insert_empty_spec e hI hn).2.1⟩
    | some cn =>
      obtain ⟨L, R, rfl⟩ := List.append_of_mem (hm cn hn)
      exact ⟨L ++ cn :: c.list.fresh :: R, (insert_after_spec e hI hn).1⟩
  | insert_before e =>
    cases hn : c.node with
    | none =>
      have hids : ids = [] := hg hn
      subst hids
      have h1 := insert_empty_spec (c := c) e hI hn
      refine ⟨[c.list.fresh], ?_⟩
      show CInv (c.insert_before e) [c.list.fresh]
      rw [← h1.1]
      exact h1.2.1
    | some cn =>
      obtain ⟨L, R, rfl⟩ := List.append_of_mem (hm cn hn)
      exact ⟨L ++ c.list.fresh :: cn :: R, (insert_before_spec e hI hn).1⟩

theorem cinv_new : CInv (newCursor (α := α)) [] :=
  ⟨⟨dseg_nil _ _ _, rfl, rfl, rfl, List.nodup_nil, fun k hk => absurd hk (by simp)⟩,
    fun _ => rfl, fun m hm => Option.noConfusion hm⟩

theorem lastOr_some_of_some (l : List Nat) (a : Nat) : ∃ m, lastOr l (some a) = some m := by
  induction l generalizing a with
  | nil => exact ⟨a, rfl⟩
  | cons b t ih =>
    rw [lastOr_cons]
    exact ih b

theorem cursor_front_cinv {l : LinkedList α} {ids : List Nat} (hinv : Inv l ids) :
    CInv (l.cursor_front) ids := by
  refine ⟨hinv, ?_, ?_⟩
  · intro he
    have he2 : headOr ids none = none := by
      rw [← hinv.2.1]
      exact he
    cases ids with
    | nil => rfl
    | cons a t =>
      rw [headOr_cons] at he2
      exact Option.noConfusion he2
  · intro m hm
    have hm2 : headOr ids none = some m := by
      rw [← hinv.2.1]
      exact hm
    exact mem_of_headOr_none hm2

theorem cursor_back_cinv {l : LinkedList α} {ids : List Nat} (hinv : Inv l ids) :
    CInv (l.cursor_back) ids := by
  refine ⟨hinv, ?_, ?_⟩
  · intro he
    have he2 : lastOr ids none = none := by
      rw [← hinv.2.2.1]
      exact he
    cases ids with
    | nil => rfl
    | cons a t =>
      rw [lastOr_cons] at he2
      obtain ⟨m, hm2⟩ := lastOr_some_of_some t a
      rw [hm2] at he2
      exact Option.noConfusion he2
  · intro m hm
    have hm2 : lastOr ids none = some m := by
      rw [← hinv.2.2.1]
      exact hm
    exact mem_of_lastOr_none hm2

theorem reach_cinv {c : Cursor α} (hr : Reach c) : ∃ ids, CInv c ids := by
  induction hr with
  | init => exact ⟨[], cinv_new⟩
  | front hr2 ih =>
    obtain ⟨ids, hinv⟩ := ih
    exact ⟨ids, cursor_front_cinv hinv.1⟩
  | back hr2 ih =>
    obtain ⟨ids, hinv⟩ := ih
    exact ⟨ids, cursor_back_cinv hinv.1⟩
  | op o hr2 ih =>
    obtain ⟨ids, hinv⟩ := ih
    exact applyOp_cinv hinv o

theorem runOps_cinv {c : Cursor α} {ids : List Nat} (hinv : CInv c ids)
    (ops : List (Op α)) : ∃ ids2, CInv (runOps c ops) ids2 := by
  induction ops generalizing c ids with
  | nil => exact ⟨ids, hinv⟩
  | cons o ops ih =>
    obtain ⟨ids2, h2⟩ := applyOp_cinv hinv o
    exact ih h2

theorem inv_walkNext {l : LinkedList α} {ids : List Nat} (hinv : Inv l ids) :
    ∀ fuel, l.len ≤ fuel → walkNext l.heap fuel l.front = ids := by
  intro fuel hf
  rw [hinv.2.1]
  exact walkNext_of_dseg hinv.1 fuel (by rw [← hinv.2.2.2.1]; exact hf)

theorem inv_walkPrev {l : LinkedList α} {ids : List Nat} (hinv : Inv l ids) :
    ∀ fuel, l.len ≤ fuel → walkPrev l.heap fuel l.back = ids.reverse := by
  intro fuel hf
  rw [hinv.2.2.1, walkPrev_eq_flip]
  have hflip : dseg (Heap.flip l.heap) none ids.reverse none := dseg_flip hinv.1
  have hhead : lastOr ids none = headOr ids.reverse none := (headOr_reverse ids).symm
  rw [hhead]
  exact walkNext_of_dseg hflip fuel
    (by rw [List.length_reverse, ← hinv.2.2.2.1]; exact hf)

theorem inv_iterElems {l : LinkedList α} {ids : List Nat} (hinv : Inv l ids) :
    ∀ fuel, l.len ≤ fuel → iterElems l.heap fuel l.front = elemsOf l.heap ids := by
  intro fuel hf
  rw [hinv.2.1]
  exact iterElems_of_dseg hinv.1 fuel (by rw [← hinv.2.2.2.1]; exact hf)

theorem inv_prevElems {l : LinkedList α} {ids : List Nat} (hinv : Inv l ids) :
    ∀ fuel, l.len ≤ fuel → prevElems l.heap fuel l.back = (elemsOf l.heap ids).reverse := by
  intro fuel hf
  rw [hinv.2.2.1, prevElems_eq_flip]
  have hflip : dseg (Heap.flip l.heap) none ids.reverse none := dseg_flip hinv.1
  have hhead : lastOr ids none = headOr ids.reverse none := (headOr_reverse ids).symm
  rw [hhead]
  rw [iterElems_of_dseg hflip fuel
    (by rw [List.length_reverse, ← hinv.2.2.2.1]; exact hf)]
  rw [elemsOf_flip, elemsOf_reverse]

theorem drainLoop_ghost {c : Cursor α} (hg : c.node = none) (fuel : Nat) :
    drainLoop c fuel = (c, []) := by
  cases fuel with
  | zero => rfl
  | succ f =>
    have ht : Cursor.take c = (c, none) := by simp [Cursor.take, hg]
    simp [drainLoop, ht]

theorem drain_spec {c : Cursor α} {ids : List Nat} (hinv : Inv c.list ids)
    (hn : c.node = headOr ids none) :
    ∀ fuel, ids.length ≤ fuel →
      (drainLoop c fuel).2 = elemsOf c.list.heap ids ∧
      (drainLoop c fuel).1.list.len = 0 ∧
      (drainLoop c fuel).1.list.front = none ∧
      (drainLoop c fuel).1.list.back = none := by
  induction ids generalizing c with
  | nil =>
    intro fuel _
    rw [headOr_nil] at hn
    rw [drainLoop_ghost hn fuel]
    exact ⟨rfl, hinv.2.2.2.1, hinv.2.1, hinv.2.2.1⟩
  | cons n rest ih =>
    intro fuel hf
    rw [headOr_cons] at hn
    cases fuel with
    | zero => exact absurd hf (Nat.not_succ_le_zero _)
    | succ f =>
      have hts := take_spec (c := c) (L := []) (R := rest) (n := n) hinv hn
      obtain ⟨hcinv2, hnode2, hfresh2, hret2, hframe2⟩ := hts
      obtain ⟨nd, hnd⟩ : ∃ nd, c.list.heap n = some nd := by
        obtain ⟨nd, hnd, -⟩ := dseg_extract (L := []) (R := rest) hinv.1
        exact ⟨nd, hnd⟩
      have hret3 : (Cursor.take c).2 = some nd.element := by
        rw [hret2, hnd]
        rfl
      have hpair : Cursor.take c = ((Cursor.take c).1, some nd.element) := by
        rw [← hret3]
      have hdrain : drainLoop c (f + 1) =
          ((drainLoop (Cursor.take c).1 f).1,
            nd.element :: (drainLoop (Cursor.take c).1 f).2) := by
        conv_lhs => rw [drainLoop, hpair]
      have hnmem : n ∉ rest := (List.nodup_cons.mp hinv.2.2.2.2.1).1
      have helems : elemsOf (Cursor.take c).1.list.heap rest = elemsOf c.list.heap rest :=
        elemsOf_congr fun k hk => hframe2 k (fun he => hnmem (by rw [← he]; exact hk))
      have ih2 := ih hcinv2.1 hnode2 f (Nat.le_of_succ_le_succ hf)
      rw [hdrain]
      refine ⟨?_, ih2.2.1, ih2.2.2.1, ih2.2.2.2⟩
      show nd.element :: (drainLoop (Cursor.take c).1 f).2 = elemsOf c.list.heap (n :: rest)
      rw [ih2.1, helems]
      simp [elemsOf, List.filterMap_cons, hnd]

theorem elemsOf_length {h : Heap α} {ids : List Nat} {pr nx : Option Nat}
    (hd : dseg h pr ids nx) : (elemsOf h ids).length = ids.length := by
  induction ids generalizing pr with
  | nil => rfl
  | cons n rest ih =>
    obtain ⟨nd, hnd, -, -, hdrest⟩ := (dseg_cons h pr nx n rest).mp hd
    have hstep : elemsOf h (n :: rest) = nd.element :: elemsOf h rest := by
      simp [elemsOf, List.filterMap_cons, hnd]
    rw [hstep, List.length_cons, ih hdrest]
    rfl

theorem inv_front_none_iff {l : LinkedList α} {ids : List Nat} (hinv : Inv l ids) :
    l.front = none ↔ l.len = 0 := by
  rw [hinv.2.1, hinv.2.2.2.1]
  cases ids with
  | nil => simp [headOr_nil]
  | cons a t => simp [headOr_cons]

theorem inv_back_none_iff {l : LinkedList α} {ids : List Nat} (hinv : Inv l ids) :
    l.back = none ↔ l.len = 0 := by
  rw [hinv.2.2.1, hinv.2.2.2.1]
  cases ids with
  | nil => simp [lastOr_nil]
  | cons a t =>
    obtain ⟨m, hm⟩ := lastOr_some_of_some t a
    rw [lastOr_cons, hm]
    simp

/-- C1: after every sequence of public cursor operations on a list built from
`new()`, there is a duplicate-free id sequence `ids` such that the forward
walk from `front` (with any fuel of at least `len`) visits exactly `ids`, the
backward walk from `back` visits exactly `ids.reverse` (so both counts equal
`len` and neither walk cycles), `front`/`back` are `none` exactly when
`len = 0`, and when `len > 0` the forward walk starts at `front` and ends at
`back` and the backward walk conversely. -/
theorem c1_traversal_invariant {α : Type} (ops : List (Op α)) :
    ∃ ids : List Nat,
      ids.length = (runOps newCursor ops).list.len ∧
      (∀ fuel, (runOps newCursor ops).list.len ≤ fuel →
        walkNext (runOps newCursor ops).list.heap fuel
          (runOps newCursor ops).list.front = ids) ∧
      (∀ fuel, (runOps newCursor ops).list.len ≤ fuel →
        walkPrev (runOps newCursor ops).list.heap fuel
          (runOps newCursor ops).list.back = ids.reverse) ∧
      ((runOps newCursor ops).list.front = none ↔ (runOps newCursor ops).list.len = 0) ∧
      ((runOps newCursor ops).list.back = none ↔ (runOps newCursor ops).list.len = 0) ∧
      ((runOps newCursor ops).list.front = headOr ids none ∧
        (runOps newCursor ops).list.back = lastOr ids none) ∧
      ids.Nodup := by
  obtain ⟨ids, hcinv⟩ := runOps_cinv cinv_new ops
  have hinv := hcinv.1
  exact ⟨ids, hinv.2.2.2.1.symm,
    fun fuel hf => inv_walkNext hinv fuel hf,
    fun fuel hf => inv_walkPrev hinv fuel hf,
    inv_front_none_iff hinv, inv_back_none_iff hinv,
    ⟨hinv.2.1, hinv.2.2.1⟩, hinv.2.2.2.2.1⟩

/-- C1 witness: the invariant instantiated on the concrete operation sequence
of the specification scenario. -/
theorem c1_traversal_invariant_witness :
    ∃ ids : List Nat,
      ids.length = (runOps newCursor scenarioOps).list.len ∧
      (∀ fuel, (runOps newCursor scenarioOps).list.len ≤ fuel →
        walkNext (runOps newCursor scenarioOps).list.heap fuel
          (runOps newCursor scenarioOps).list.front = ids) ∧
      (∀ fuel, (runOps newCursor scenarioOps).list.len ≤ fuel →
        walkPrev (runOps newCursor scenarioOps).list.heap fuel
          (runOps newCursor scenarioOps).list.back = ids.reverse) ∧
      ((runOps newCursor scenarioOps).list.front = none ↔
        (runOps newCursor scenarioOps).list.len = 0) ∧
      ((runOps newCursor scenarioOps).list.back = none ↔
        (runOps newCursor scenarioOps).list.len = 0) ∧
      ((runOps newCursor scenarioOps).list.front = headOr ids none ∧
        (runOps newCursor scenarioOps).list.back = lastOr ids none) ∧
      ids.Nodup :=
  c1_traversal_invariant scenarioOps

/-- C2 counterexample: on the one-element list built by `insert_after 5`,
`next()` on the cursor (which sits on the sole node, the back boundary)
returns no result, yet the cursor remains on node 0 and is not at the ghost
position, contradicting the claim that it is left at the ghost position. -/
theorem c2_counterexample :
    ((runOps (newCursor (α := Int)) [Op.insert_after 5]).next).2 = none ∧
    ((runOps (newCursor (α := Int)) [Op.insert_after 5]).next).1.node = some 0 ∧
    (some 0 : Option Nat) ≠ none :=
  ⟨rfl, rfl, fun h => Option.noConfusion h⟩

/-- C2 (amended): `next()` (resp. `prev()`) with nothing further in that
direction returns no result and leaves the cursor exactly where it was: a
ghost cursor stays ghost, and a cursor on a boundary node with no link in
that direction stays on that node; in particular the cursor never wraps to
the other end. -/
theorem c2_step_no_wrap {α : Type} (c : Cursor α) :
    (c.node = none → Cursor.next c = (c, none) ∧ Cursor.prev c = (c, none)) ∧
    (∀ n, c.node = some n → c.list.heap.getNext n = none → Cursor.next c = (c, none)) ∧
    (∀ n, c.node = some n → c.list.heap.getPrev n = none → Cursor.prev c = (c, none)) :=
  ⟨fun hg => ⟨by simp [Cursor.next, Cursor.step, hg], by simp [Cursor.prev, Cursor.step, hg]⟩,
    fun n hn hgn => by simp [Cursor.next, Cursor.step, hn, hgn],
    fun n hn hgp => by simp [Cursor.prev, Cursor.step, hn, hgp]⟩

/-- C2 witness: stepping a ghost cursor on the fresh empty list returns no
result and leaves the cursor unchanged. -/
theorem c2_step_no_wrap_witness :
    Cursor.next (newCursor (α := Int)) = (newCursor, none) :=
  ((c2_step_no_wrap newCursor).1 rfl).1

/-- C3: `take()` on a cursor positioned on a node with both a prev neighbour
`p` and a next neighbour `r` (all distinctly allocated) removes that node,
returns its element, re-links `p` and `r` directly to each other, moves the
cursor to `r`, decrements `len` by exactly one, and leaves `front` and
`back` unchanged. -/
theorem c3_take_interior {α : Type} (c : Cursor α) (n p r : Nat) (nd ndp ndr : Node α)
    (hn : c.node = some n) (hnd : c.list.heap n = some nd)
    (hp : nd.prev = some p) (hr : nd.next = some r)
    (hndp : c.list.heap p = some ndp) (hndr : c.list.heap r = some ndr)
    (hpn : p ≠ n) (hrn : r ≠ n) (hpr : p ≠ r) (hlen : 0 < c.list.len) :
    (Cursor.take c).2 = some nd.element ∧
    (Cursor.take c).1.node = some r ∧
    (Cursor.take c).1.list.front = c.list.front ∧
    (Cursor.take c).1.list.back = c.list.back ∧
    (Cursor.take c).1.list.len + 1 = c.list.len ∧
    Heap.getNext (Cursor.take c).1.list.heap p = some r ∧
    Heap.getPrev (Cursor.take c).1.list.heap r = some p ∧
    (Cursor.take c).1.list.heap n = none := by
  have hun : unlink_next c.list.heap n = (c.list.heap.setPrev r none, some r) := by
    simp [unlink_next, Heap.getNext, hnd, hr]
  have hgp2 : (c.list.heap.setPrev r none).getPrev n = some p := by
    rw [Heap.getPrev, Heap.setPrev_other _ _ (Ne.symm hrn), hnd]
    exact hp
  have hup : unlink_prev (c.list.heap.setPrev r none) n =
      ((c.list.heap.setPrev r none).setNext p none, some p) := by
    simp [unlink_prev, hgp2]
  have htake : Cursor.take c =
      (⟨⟨(link ((c.list.heap.setPrev r none).setNext p none) p r).erase n,
         c.list.fresh, c.list.back, c.list.front, c.list.len - 1⟩, some r⟩,
       ((link ((c.list.heap.setPrev r none).setNext p none) p r) n).map Node.element) := by
    simp only [Cursor.take, hn, hun, hup, into_inner]
  rw [htake]
  have hsp : (c.list.heap.setPrev r none) p = some ndp := by
    rw [Heap.setPrev_other _ _ hpr]
    exact hndp
  have hmidp : ((c.list.heap.setPrev r none).setNext p none) p =
      some { ndp with next := none } := Heap.setNext_self hsp none
  have hp3 : (link ((c.list.heap.setPrev r none).setNext p none) p r) p =
      some { ndp with next := some r } := by
    rw [link, Heap.setPrev_other _ _ hpr, Heap.setNext_self hmidp]
  have hp4 : ((link ((c.list.heap.setPrev r none).setNext p none) p r).erase n) p =
      some { ndp with next := some r } := by
    rw [Heap.erase_other _ hpn]
    exact hp3
  have h2r : ((c.list.heap.setPrev r none).setNext p none) r =
      some { ndr with prev := none } := by
    rw [Heap.setNext_other _ _ (Ne.symm hpr)]
    exact Heap.setPrev_self hndr none
  have h3r : (((c.list.heap.setPrev r none).setNext p none).setNext p (some r)) r =
      some { ndr with prev := none } := by
    rw [Heap.setNext_other _ _ (Ne.symm hpr)]
    exact h2r
  have hr3 : (link ((c.list.heap.setPrev r none).setNext p none) p r) r =
      some { ndr with prev := some p } := by
    rw [link]
    exact Heap.setPrev_self h3r (some p)
  have hr4 : ((link ((c.list.heap.setPrev r none).setNext p none) p r).erase n) r =
      some { ndr with prev := some p } := by
    rw [Heap.erase_other _ hrn]
    exact hr3
  have hret : ((link ((c.list.heap.setPrev r none).setNext p none) p r) n).map
      Node.element = some nd.element := by
    rw [link_element, Heap.setNext_element, Heap.setPrev_element, hnd]
    rfl
  have hlen2 : (c.list.len - 1) + 1 = c.list.len := by omega
  have hgnp : Heap.getNext
      ((link ((c.list.heap.setPrev r none).setNext p none) p r).erase n) p = some r := by
    rw [Heap.getNext, hp4]
  have hgpr : Heap.getPrev
      ((link ((c.list.heap.setPrev r none).setNext p none) p r).erase n) r = some p := by
    rw [Heap.getPrev, hr4]
  exact ⟨hret, rfl, rfl, rfl, hlen2, hgnp, hgpr, Heap.erase_self _ _⟩

/-- C3 witness: in the scenario list [1, 5, 2] with the cursor on the middle
element 5 (node 2, between node 0 and node 1), `take()` returns 5, moves the
cursor to node 1, keeps `front`/`back`, re-links 0 ↔ 1 and frees node 2. -/
theorem c3_take_interior_witness :
    (Cursor.take (runOps newCursor scenarioOps)).2 = some 5 ∧
    (Cursor.take (runOps newCursor scenarioOps)).1.node = some 1 ∧
    (Cursor.take (runOps newCursor scenarioOps)).1.list.front =
      (runOps newCursor scenarioOps).list.front ∧
    (Cursor.take (runOps newCursor scenarioOps)).1.list.back =
      (runOps newCursor scenarioOps).list.back ∧
    (Cursor.take (runOps newCursor scenarioOps)).1.list.len + 1 =
      (runOps newCursor scenarioOps).list.len ∧
    Heap.getNext (Cursor.take (runOps newCursor scenarioOps)).1.list.heap 0 = some 1 ∧
    Heap.getPrev (Cursor.take (runOps newCursor scenarioOps)).1.list.heap 1 = some 0 ∧
    (Cursor.take (runOps newCursor scenarioOps)).1.list.heap 2 = none :=
  c3_take_interior (runOps newCursor scenarioOps) 2 0 1
    ⟨5, some 1, some 0⟩ ⟨1, some 2, none⟩ ⟨2, none, some 2⟩
    rfl rfl rfl rfl rfl rfl
    (by decide) (by decide) (by decide) (by decide)

/-- C4: `take()` on the sole element of a single-element list returns that
element and leaves `len() = 0`, `front = none`, `back = none`, and the
cursor at the ghost position. -/
theorem c4_take_sole {α : Type} (c : Cursor α) (n : Nat) (nd : Node α)
    (hn : c.node = some n) (hnd : c.list.heap n = some nd)
    (hp : nd.prev = none) (hr : nd.next = none) (hlen : c.list.len = 1) :
    (Cursor.take c).2 = some nd.element ∧
    (Cursor.take c).1.node = none ∧
    (Cursor.take c).1.list.front = none ∧
    (Cursor.take c).1.list.back = none ∧
    (Cursor.take c).1.list.len = 0 := by
  have hun : unlink_next c.list.heap n = (c.list.heap, none) := by
    simp [unlink_next, Heap.getNext, hnd, hr]
  have hup : unlink_prev c.list.heap n = (c.list.heap, none) := by
    simp [unlink_prev, Heap.getPrev, hnd, hp]
  have htake : Cursor.take c =
      (⟨⟨c.list.heap.erase n, c.list.fresh, none, none, c.list.len - 1⟩, none⟩,
       (c.list.heap n).map Node.element) := by
    simp only [Cursor.take, hn, hun, hup, into_inner]
  rw [htake]
  have hlen2 : c.list.len - 1 = 0 := by omega
  exact ⟨by rw [hnd]; rfl, rfl, rfl, rfl, hlen2⟩

/-- C4 witness: taking the sole element 7 of the one-element list drains it
entirely. -/
theorem c4_take_sole_witness :
    (Cursor.take (runOps (newCursor (α := Int)) [Op.insert_after 7])).2 = some 7 ∧
    (Cursor.take (runOps (newCursor (α := Int)) [Op.insert_after 7])).1.node = none ∧
    (Cursor.take (runOps (newCursor (α := Int)) [Op.insert_after 7])).1.list.front = none ∧
    (Cursor.take (runOps (newCursor (α := Int)) [Op.insert_after 7])).1.list.back = none ∧
    (Cursor.take (runOps (newCursor (α := Int)) [Op.insert_after 7])).1.list.len = 0 :=
  c4_take_sole (runOps newCursor [Op.insert_after 7]) 0 ⟨7, none, none⟩
    rfl rfl rfl rfl rfl

/-- C5: inserting into an empty list through a ghost cursor behaves
identically for `insert_after` and `insert_before`: the literally same state
results, with a single fresh node holding exactly the element `e` (and no
links) that is simultaneously the list's front and back, `len = 1`, and the
cursor moved from ghost onto the new node. -/
theorem c5_insert_empty {α : Type} (c : Cursor α) (e : α)
    (hg : c.node = none) (hlen : c.list.len = 0) :
    Cursor.insert_after c e = Cursor.insert_before c e ∧
    (Cursor.insert_after c e).node = some c.list.fresh ∧
    (Cursor.insert_after c e).list.front = some c.list.fresh ∧
    (Cursor.insert_after c e).list.back = some c.list.fresh ∧
    (Cursor.insert_after c e).list.len = 1 ∧
    (Cursor.insert_after c e).list.heap c.list.fresh = some ⟨e, none, none⟩ := by
  have hia : Cursor.insert_after c e =
      ⟨⟨c.list.heap.set c.list.fresh ⟨e, none, none⟩, c.list.fresh + 1,
        some c.list.fresh, some c.list.fresh, c.list.len + 1⟩, some c.list.fresh⟩ := by
    simp only [Cursor.insert_after, Cursor.insert, hg]
  have hib : Cursor.insert_before c e =
      ⟨⟨c.list.heap.set c.list.fresh ⟨e, none, none⟩, c.list.fresh + 1,
        some c.list.fresh, some c.list.fresh, c.list.len + 1⟩, some c.list.fresh⟩ := by
    simp only [Cursor.insert_before, Cursor.insert, hg]
  rw [hia, hib]
  have hlen2 : c.list.len + 1 = 1 := by omega
  exact ⟨rfl, rfl, rfl, rfl, hlen2, Heap.set_self _ _ _⟩

/-- C5 witness: the bootstrap insertion on the fresh empty list. -/
theorem c5_insert_empty_witness :
    Cursor.insert_after (newCursor (α := Int)) 3 =
      Cursor.insert_before (newCursor (α := Int)) 3 ∧
    (Cursor.insert_after (newCursor (α := Int)) 3).node = some 0 ∧
    (Cursor.insert_after (newCursor (α := Int)) 3).list.front = some 0 ∧
    (Cursor.insert_after (newCursor (α := Int)) 3).list.back = some 0 ∧
    (Cursor.insert_after (newCursor (α := Int)) 3).list.len = 1 ∧
    (Cursor.insert_after (newCursor (α := Int)) 3).list.heap 0 = some ⟨3, none, none⟩ :=
  c5_insert_empty newCursor 3 rfl rfl

/-- C6: on a cursor positioned on node `cn` of a well-formed non-empty list,
`insert_after e` allocates the fresh node directly after `cn` (and
`insert_before e` directly before it), increments `len` by one, leaves the
cursor on `cn`, updates `back` to the new node exactly when `cn` was the
back (for `insert_after`), updates `front` exactly when `cn` was the front
(for `insert_before`), leaves the other boundary pointer unchanged, and the
fresh adjacent node holds exactly the inserted element `e`. -/
theorem c6_insert_at_node {α : Type} (c : Cursor α) (ids : List Nat) (cn : Nat) (e : α)
    (hinv : CInv c ids) (hn : c.node = some cn) :
    ((Cursor.insert_after c e).node = some cn ∧
     (Cursor.insert_after c e).list.len = c.list.len + 1 ∧
     (Cursor.insert_after c e).list.front = c.list.front ∧
     (c.list.back = some cn →
       (Cursor.insert_after c e).list.back = some c.list.fresh) ∧
     (c.list.back ≠ some cn →
       (Cursor.insert_after c e).list.back = c.list.back) ∧
     Heap.getNext (Cursor.insert_after c e).list.heap cn = some c.list.fresh ∧
     Heap.getPrev (Cursor.insert_after c e).list.heap c.list.fresh = some cn ∧
     ((Cursor.insert_after c e).list.heap c.list.fresh).map Node.element = some e) ∧
    ((Cursor.insert_before c e).node = some cn ∧
     (Cursor.insert_before c e).list.len = c.list.len + 1 ∧
     (Cursor.insert_before c e).list.back = c.list.back ∧
     (c.list.front = some cn →
       (Cursor.insert_before c e).list.front = some c.list.fresh) ∧
     (c.list.front ≠ some cn →
       (Cursor.insert_before c e).list.front = c.list.front) ∧
     Heap.getPrev (Cursor.insert_before c e).list.heap cn = some c.list.fresh ∧
     Heap.getNext (Cursor.insert_before c e).list.heap c.list.fresh = some cn ∧
     ((Cursor.insert_before c e).list.heap c.list.fresh).map Node.element = some e) := by
  obtain ⟨L, R, rfl⟩ := List.append_of_mem (hinv.2.2 cn hn)
  have ha := insert_after_spec e hinv.1 hn
  have hb := insert_before_spec e hinv.1 hn
  exact ⟨⟨ha.2.1, ha.2.2.1, ha.2.2.2.1, ha.2.2.2.2.1, ha.2.2.2.2.2.1,
    ha.2.2.2.2.2.2.1, ha.2.2.2.2.2.2.2.1, ha.2.2.2.2.2.2.2.2⟩,
    ⟨hb.2.1, hb.2.2.1, hb.2.2.2.1, hb.2.2.2.2.1, hb.2.2.2.2.2.1,
    hb.2.2.2.2.2.2.1, hb.2.2.2.2.2.2.2.1, hb.2.2.2.2.2.2.2.2⟩⟩

/-- C6 witness: in the list [1, 2] with the cursor on the back node 1
(element 2), both inserts applied at element 9. -/
theorem c6_insert_at_node_witness :
    ((Cursor.insert_after (runOps (newCursor (α := Int))
        [Op.insert_after 1, Op.insert_after 2, Op.next]) 9).node = some 1 ∧
     (Cursor.insert_after (runOps (newCursor (α := Int))
        [Op.insert_after 1, Op.insert_after 2, Op.next]) 9).list.len =
       (runOps (newCursor (α := Int))
        [Op.insert_after 1, Op.insert_after 2, Op.next]).list.len + 1 ∧
     (Cursor.insert_after (runOps (newCursor (α := Int))
        [Op.insert_after 1, Op.insert_after 2, Op.next]) 9).list.front =
       (runOps (newCursor (α := Int))
        [Op.insert_after 1, Op.insert_after 2, Op.next]).list.front ∧
     ((runOps (newCursor (α := Int))
        [Op.insert_after 1, Op.insert_after 2, Op.next]).list.back = some 1 →
       (Cursor.insert_after (runOps (newCursor (α := Int))
        [Op.insert_after 1, Op.insert_after 2, Op.next]) 9).list.back = some 2) ∧
     ((runOps (newCursor (α := Int))
        [Op.insert_after 1, Op.insert_after 2, Op.next]).list.back ≠ some 1 →
       (Cursor.insert_after (runOps (newCursor (α := Int))
        [Op.insert_after 1, Op.insert_after 2, Op.next]) 9).list.back =
       (runOps (newCursor (α := Int))
        [Op.insert_after 1, Op.insert_after 2, Op.next]).list.back) ∧
     Heap.getNext (Cursor.insert_after (runOps (newCursor (α := Int))
        [Op.insert_after 1, Op.insert_after 2, Op.next]) 9).list.heap 1 = some 2 ∧
     Heap.getPrev (Cursor.insert_after (runOps (newCursor (α := Int))
        [Op.insert_after 1, Op.insert_after 2, Op.next]) 9).list.heap 2 = some 1 ∧
     ((Cursor.insert_after (runOps (newCursor (α := Int))
        [Op.insert_after 1, Op.insert_after 2, Op.next]) 9).list.heap 2).map
       Node.element = some 9) ∧
    ((Cursor.insert_before (runOps (newCursor (α := Int))
        [Op.insert_after 1, Op.insert_after 2, Op.next]) 9).node = some 1 ∧
     (Cursor.insert_before (runOps (newCursor (α := Int))
        [Op.insert_after 1, Op.insert_after 2, Op.next]) 9).list.len =
       (runOps (newCursor (α := Int))
        [Op.insert_after 1, Op.insert_after 2, Op.next]).list.len + 1 ∧
     (Cursor.insert_before (runOps (newCursor (α := Int))
        [Op.insert_after 1, Op.insert_after 2, Op.next]) 9).list.back =
       (runOps (newCursor (α := Int))
        [Op.insert_after 1, Op.insert_after 2, Op.next]).list.back ∧
     ((runOps (newCursor (α := Int))
        [Op.insert_after 1, Op.insert_after 2, Op.next]).list.front = some 1 →
       (Cursor.insert_before (runOps (newCursor (α := Int))
        [Op.insert_after 1, Op.insert_after 2, Op.next]) 9).list.front = some 2) ∧
     ((runOps (newCursor (α := Int))
        [Op.insert_after 1, Op.insert_after 2, Op.next]).list.front ≠ some 1 →
       (Cursor.insert_before (runOps (newCursor (α := Int))
        [Op.insert_after 1, Op.insert_after 2, Op.next]) 9).list.front =
       (runOps (newCursor (α := Int))
        [Op.insert_after 1, Op.insert_after 2, Op.next]).list.front) ∧
     Heap.getPrev (Cursor.insert_before (runOps (newCursor (α := Int))
        [Op.insert_after 1, Op.insert_after 2, Op.next]) 9).list.heap 1 = some 2 ∧
     Heap.getNext (Cursor.insert_before (runOps (newCursor (α := Int))
        [Op.insert_after 1, Op.insert_after 2, Op.next]) 9).list.heap 2 = some 1 ∧
     ((Cursor.insert_before (runOps (newCursor (α := Int))
        [Op.insert_after 1, Op.insert_after 2, Op.next]) 9).list.heap 2).map
       Node.element = some 9) := by
  obtain ⟨ids, h⟩ := runOps_cinv (cinv_new (α := Int))
    [Op.insert_after 1, Op.insert_after 2, Op.next]
  exact c6_insert_at_node _ ids 1 9 h rfl

/-- C7: on an unmodified well-formed list, the element sequence of the
forward traversal from front (the iterator) is the exact reverse of the
element sequence of the backward traversal from back by repeated `prev`. -/
theorem c7_reverse_traversal {α : Type} (l : LinkedList α) (ids : List Nat) (fuel : Nat)
    (hinv : Inv l ids) (hf : l.len ≤ fuel) :
    iterElems l.heap fuel l.front = (prevElems l.heap fuel l.back).reverse := by
  rw [inv_iterElems hinv fuel hf, inv_prevElems hinv fuel hf, List.reverse_reverse]

/-- C7 witness: the forward and backward element sequences of the scenario
list [1, 5, 2] are reverses of each other. -/
theorem c7_reverse_traversal_witness :
    iterElems (runOps newCursor scenarioOps).list.heap
        (runOps newCursor scenarioOps).list.len
        (runOps newCursor scenarioOps).list.front =
      (prevElems (runOps newCursor scenarioOps).list.heap
        (runOps newCursor scenarioOps).list.len
        (runOps newCursor scenarioOps).list.back).reverse := by
  obtain ⟨ids, h⟩ := runOps_cinv cinv_new scenarioOps
  exact c7_reverse_traversal _ ids _ h.1 (Nat.le_refl _)

/-- C8: on a ghost-positioned cursor, `peek_mut()` returns no result (it is
a pure read, with no side effect and no movement, by construction of the
embedding), and `take()` returns no result while leaving the cursor and the
whole list, boundary pointers, length and node links included, unchanged. -/
theorem c8_ghost_no_result {α : Type} (c : Cursor α) (hg : c.node = none) :
    Cursor.peek_mut c = none ∧ Cursor.take c = (c, none) :=
  ⟨by simp [Cursor.peek_mut, hg], by simp [Cursor.take, hg]⟩

/-- C8 witness: the ghost cursor of the fresh empty list. -/
theorem c8_ghost_no_result_witness :
    Cursor.peek_mut (newCursor (α := Int)) = none ∧
    Cursor.take (newCursor (α := Int)) = (newCursor, none) :=
  c8_ghost_no_result newCursor rfl

/-- C9: repeatedly calling `take()` on a front cursor, as `Drop` does,
returns exactly the list's elements front-to-back (so it terminates after
exactly `len` iterations, each returning one element, independently of any
larger fuel) and leaves the list with `len = 0` and `front = back = none`. -/
theorem c9_drain {α : Type} (l : LinkedList α) (ids : List Nat) (fuel : Nat)
    (hinv : Inv l ids) (hf : l.len ≤ fuel) :
    (drainLoop l.cursor_front fuel).2 = elemsOf l.heap ids ∧
    (drainLoop l.cursor_front fuel).2.length = l.len ∧
    (drainLoop l.cursor_front fuel).1.list.len = 0 ∧
    (drainLoop l.cursor_front fuel).1.list.front = none ∧
    (drainLoop l.cursor_front fuel).1.list.back = none := by
  have hn : (l.cursor_front).node = headOr ids none := hinv.2.1
  have hd := drain_spec (c := l.cursor_front) hinv hn fuel
    (by rw [← hinv.2.2.2.1]; exact hf)
  refine ⟨hd.1, ?_, hd.2.1, hd.2.2.1, hd.2.2.2⟩
  rw [hd.1]
  show (elemsOf l.heap ids).length = l.len
  rw [elemsOf_length hinv.1]
  exact hinv.2.2.2.1.symm

/-- C9 witness: draining the scenario list [1, 5, 2] with fuel equal to its
length returns its three elements and empties the list. -/
theorem c9_drain_witness :
    (drainLoop (runOps newCursor scenarioOps).list.cursor_front
        (runOps newCursor scenarioOps).list.len).2 =
      elemsOf (runOps newCursor scenarioOps).list.heap [0, 2, 1] ∧
    (drainLoop (runOps newCursor scenarioOps).list.cursor_front
        (runOps newCursor scenarioOps).list.len).2.length =
      (runOps newCursor scenarioOps).list.len ∧
    (drainLoop (runOps newCursor scenarioOps).list.cursor_front
        (runOps newCursor scenarioOps).list.len).1.list.len = 0 ∧
    (drainLoop (runOps newCursor scenarioOps).list.cursor_front
        (runOps newCursor scenarioOps).list.len).1.list.front = none ∧
    (drainLoop (runOps newCursor scenarioOps).list.cursor_front
        (runOps newCursor scenarioOps).list.len).1.list.back = none := by
  obtain ⟨ids, h⟩ := runOps_cinv cinv_new scenarioOps
  have hids : ids = [0, 2, 1] := by
    have := inv_walkNext h.1 (runOps newCursor scenarioOps).list.len (Nat.le_refl _)
    rw [← this]
    rfl
  rw [← hids]
  exact c9_drain _ ids _ h.1 (Nat.le_refl _)

/-- C10: in every cursor state reachable through the public interface, the
cursor is at the ghost position only if the list is empty, and whenever the
cursor sits on a node the list length is positive — so the empty-list
bootstrap branch of `_insert` never runs on a non-empty list and the `len`
decrement in `take()` never underflows. -/
theorem c10_ghost_only_if_empty {α : Type} (c : Cursor α) (hr : Reach c) :
    (c.node = none → c.list.len = 0) ∧ (∀ n, c.node = some n → 0 < c.list.len) := by
  obtain ⟨ids, hcinv⟩ := reach_cinv hr
  constructor
  · intro hg
    rw [hcinv.1.2.2.2.1, hcinv.2.1 hg]
    rfl
  · intro n hn
    have hmem := hcinv.2.2 n hn
    rw [hcinv.1.2.2.2.1]
    cases ids with
    | nil => cases hmem
    | cons a t => simp

/-- C10 witness: the initial reachable cursor on the fresh empty list. -/
theorem c10_ghost_only_if_empty_witness :
    ((newCursor (α := Int)).node = none → (newCursor (α := Int)).list.len = 0) ∧
    (∀ n, (newCursor (α := Int)).node = some n → 0 < (newCursor (α := Int)).list.len) :=
  c10_ghost_only_if_empty newCursor Reach.init

end DLL
